import Mathlib

/-!
Verification of the schema-resolution core of tfmodmake against its
specification.

The subject is the Go code under `internal/openapi/allof.go` (the `allOf`
flattening resolver and the schema equivalence checker), together with
`internal/terraform/secrets.go` (`isSecretField`) and the generator's
constraint/enum handling (`generateVariables`, `extractEnumValues`).

Modelling conventions:
* OpenAPI schemas (`*openapi3.Schema`) form a pointer graph.  We model the
  graph explicitly as a heap: node ids index a list of `SNode` records and
  ref ids index a list of `*openapi3.SchemaRef` cells.  A `*SchemaRef` is a
  mutable cell holding a possibly-nil `*Schema` pointer, so a ref cell is an
  `Option NodeId`; a nil `*SchemaRef` itself is `none` at the use site.
  Pointer identity (the unit of cycle detection) is id equality.
* Go `float64` constraint values are modelled as `Int`: the code only ever
  compares them for equality, never does arithmetic on them.
* Go `uint64` is modelled as `Nat`.
* `fmt.Sprintf` with the verb `v` on enum members is modelled by
  `GoVal.render`.
* All recursive functions take explicit fuel and recurse structurally on
  it, so every definition is executable and kernel-reducible.  Running out
  of fuel ("the Go code is still recursing") is `none` for the resolver and
  `false` for the Boolean equivalence checker.
* Go iterates maps in unspecified order; the model fixes a list order.
  Which map entry is visited first never changes any property proved here
  (conflicts abort the whole merge regardless of which entry trips first).
-/

/-- Characters are compared by code point, as Go compares string bytes
(identical on ASCII, which is all the repository's comparisons touch). -/
def strLeChars : List Char → List Char → Bool
| [], _ => true
| _ :: _, [] => false
| a :: as, b :: bs =>
  if a.toNat < b.toNat then true
  else if b.toNat < a.toNat then false
  else strLeChars as bs

/-- Lexicographic string order used to model Go's `sort.Strings`. -/
def strLe (a b : String) : Bool := strLeChars a.data b.data

/-- Model of Go's `sort.Strings` (any correct comparison sort; the code
only depends on the sorted result). -/
def sortStrings (l : List String) : List String :=
  List.insertionSort (fun a b => strLe a b = true) l

/-- ASCII lower-casing of one character; models `strings.ToLower` on the
ASCII range, which is all the repository's descriptions use for the
matched phrase. -/
def lcChar (c : Char) : Char :=
  if 'A' ≤ c ∧ c ≤ 'Z' then Char.ofNat (c.toNat + 32) else c

/-- Model of `strings.ToLower`. -/
def lowerStr (s : String) : String := String.mk (s.data.map lcChar)

/-- Model of `strings.Contains`. -/
def containsSub (hay needle : String) : Bool :=
  (List.range (hay.data.length + 1)).any
    (fun i => needle.data.isPrefixOf (hay.data.drop i))

/-- A Go `any` value as it appears in enum member lists; `render` is what
`fmt.Sprintf` with verb `v` prints for it.  Distinct values may share a
rendering (the string `"1"` and the number `1`), which is exactly the
coercion the equivalence checker inherits. -/
inductive GoVal where
| strV (s : String)
| intV (n : Int)
| boolV (b : Bool)
deriving DecidableEq

def GoVal.render : GoVal → String
| .strV s => s
| .intV n => toString n
| .boolV true => "true"
| .boolV false => "false"

/-- A vendor-extension value (`map[string]any` entry).  `boolVal` is a JSON
boolean (the only shape `isSecretField` accepts); `enumObj` is the decoded
`x-ms-enum` payload: for each element of its `values` array, the element's
`value` field when that field is a string (the only part
`extractEnumValues` reads, identical for the `json.RawMessage` and
`map[string]any` branches). -/
inductive ExtVal where
| boolVal (b : Bool)
| strVal (s : String)
| strList (xs : List String)
| enumObj (values : List (Option String))
| other
deriving DecidableEq

/-- Node id in the schema heap (`*openapi3.Schema` pointer identity). -/
abbrev NodeId := Nat

/-- Ref id in the schema heap (`*openapi3.SchemaRef` pointer identity). -/
abbrev RefId := Nat

/-- The scalar (non-pointer) fields of `openapi3.Schema` that the verified
code reads. -/
structure SchCore where
  type_ : Option (List String) := none
  format : String := ""
  description : String := ""
  title : String := ""
  readOnly : Bool := false
  writeOnly : Bool := false
  enum : List GoVal := []
  minLength : Nat := 0
  maxLength : Option Nat := none
  min : Option Int := none
  max : Option Int := none
  exclusiveMin : Bool := false
  exclusiveMax : Bool := false
  multipleOf : Option Int := none
  minItems : Nat := 0
  maxItems : Option Nat := none
  uniqueItems : Bool := false
  required : List String := []
  apHas : Option Bool := none
  extensions : Option (List (String × ExtVal)) := none
deriving DecidableEq

/-- One `openapi3.Schema` record.  `properties` maps names to `*SchemaRef`
pointers (`none` models a nil `*SchemaRef` map entry); `allOf` is the
`AllOf` slice; `items` and `apSchema` are the `Items` and
`AdditionalProperties.Schema` ref pointers. -/
structure SNode where
  core : SchCore := {}
  properties : List (String × Option RefId) := []
  allOf : List (Option RefId) := []
  items : Option RefId := none
  apSchema : Option RefId := none
deriving DecidableEq

/-- The schema graph: nodes indexed by `NodeId`, ref cells indexed by
`RefId`.  A ref cell holds the current `Value` pointer of the
`*SchemaRef`, which the resolver mutates. -/
structure Heap where
  nodes : List SNode := []
  refs : List (Option NodeId) := []
deriving DecidableEq

def getNode (h : Heap) (n : NodeId) : Option SNode := h.nodes.get? n

/-- Dereference a `*SchemaRef` cell: the current `Value` pointer. -/
def refValue (h : Heap) (r : RefId) : Option NodeId := (h.refs.get? r).join

/-- `ref.Value = v` : overwrite a ref cell. -/
def setRef (h : Heap) (r : RefId) (v : Option NodeId) : Heap :=
  { h with refs := h.refs.set r v }

/-- Allocate a fresh schema node, as `&openapi3.Schema{...}` does. -/
def allocNode (h : Heap) (s : SNode) : Heap × NodeId :=
  ({ h with nodes := h.nodes ++ [s] }, h.nodes.length)

/-- Go map lookup on the association-list model of a `map[string]T`. -/
def plookup {α : Type} (k : String) : List (String × α) → Option α
| [] => none
| p :: rest => if p.1 == k then some p.2 else plookup k rest

/-- Go helper `contains(slice []string, item string) bool`. -/
def containsStr (slice : List String) (item : String) : Bool :=
  slice.any (fun s => s == item)

/-- Lines 196-200 of allof.go: union a component's required names into the
accumulated required list, skipping names already present. -/
def unionRequired (acc : List String) (comp : List String) : List String :=
  comp.foldl (fun a r => if containsStr a r then a else a ++ [r]) acc

/-- Go `typesEqual(a, b *openapi3.Types) bool`: nil handling, then compare
as sorted lists. -/
def typesEqual : Option (List String) → Option (List String) → Bool
| none, none => true
| none, some _ => false
| some _, none => false
| some a, some b => (a.length == b.length) && (sortStrings a == sortStrings b)

/-- Go `enumsEqual(a, b []any) bool`: length check, then compare the sorted
`fmt.Sprintf` renderings. -/
def enumsEqual (a b : List GoVal) : Bool :=
  if a.length == b.length then
    if a.length == 0 then true
    else sortStrings (a.map GoVal.render) == sortStrings (b.map GoVal.render)
  else false

/-- Go `uint64PtrEqual`. -/
def uint64PtrEqual : Option Nat → Option Nat → Bool
| none, none => true
| none, some _ => false
| some _, none => false
| some a, some b => a == b

/-- Go `float64PtrEqual`. -/
def float64PtrEqual : Option Int → Option Int → Bool
| none, none => true
| none, some _ => false
| some _, none => false
| some a, some b => a == b

/-- Go `isObjectType(s *openapi3.Schema) bool` on a schema pointer. -/
def isObjectType (h : Heap) : Option NodeId → Bool
| none => false
| some i =>
  match getNode h i with
  | none => false
  | some s =>
    match s.core.type_ with
    | none => false
    | some ts => ts.any (fun t => t == "object")

/-- Go `isArrayType(s *openapi3.Schema) bool` on a schema pointer. -/
def isArrayType (h : Heap) : Option NodeId → Bool
| none => false
| some i =>
  match getNode h i with
  | none => false
  | some s =>
    match s.core.type_ with
    | none => false
    | some ts => ts.any (fun t => t == "array")

/-- Go `getSchemaType(s *openapi3.Schema) string`. -/
def getSchemaType (h : Heap) : Option NodeId → String
| none => "unknown"
| some i =>
  match getNode h i with
  | none => "unknown"
  | some s =>
    match s.core.type_ with
    | none => "unknown"
    | some [] => "unknown"
    | some (t :: _) => t

/-- The `Description` field of a schema pointer, empty for the model's
dangling ids (which well-formed heaps do not contain). -/
def nodeDescr (h : Heap) (n : NodeId) : String :=
  match getNode h n with
  | none => ""
  | some s => s.core.description

/-- Go `getDescription(schema *openapi3.Schema, propName string) string`. -/
def getDescription (h : Heap) (schema : Option NodeId) (propName : String) : String :=
  match schema with
  | none => ""
  | some i =>
    match getNode h i with
    | none => ""
    | some s =>
      match plookup propName s.properties with
      | some (some r) =>
        match refValue h r with
        | some v => nodeDescr h v
        | none => ""
      | _ => ""

/-- The shared nil-handling pattern of the checker's recursive
comparisons: for two `*SchemaRef` pointers (a property entry of each side,
or the two `Items` fields), both nil compare equal, one nil compares
unequal, and otherwise the pointed-to `Value` schemas are compared with
`eqf` (the checker at the remaining fuel). -/
def refPtrEquivalent (h : Heap) (eqf : Option NodeId → Option NodeId → Bool) :
    Option RefId → Option RefId → Bool
| none, none => true
| none, some _ => false
| some _, none => false
| some ra, some rb => eqf (refValue h ra) (refValue h rb)

/-- The body of the checker's property loop (allof.go lines 341-352): the
property `pr` of the first schema is looked up in the second schema's
`Properties` map; a missing name fails, and a present one is compared as
the two `*SchemaRef` pointers are. -/
def propFound (h : Heap) (eqf : Option NodeId → Option NodeId → Bool)
    (pb : List (String × Option RefId)) (pr : String × Option RefId) : Bool :=
  match plookup pr.1 pb with
  | none => false
  | some bref => refPtrEquivalent h eqf pr.2 bref

/-- Go `schemasEquivalent(a, b *openapi3.Schema) bool` (allof.go lines
272-376), fuel-indexed: the Go function recurses through the pointer graph
with no cycle guard, so each model level costs one unit of fuel and an
exhausted run (a run on which the Go code would still be recursing)
answers `false`.  The chain of early `return false` checks is written as
one Boolean conjunction, which has the same value; the early `return true`
for two nil `Items` is the last check, so it too equals the conjunction.
The recursion into property values and items dereferences the ref cells
exactly as `aProp.Value` does. -/
def schemasEquivalent : Nat → Heap → Option NodeId → Option NodeId → Bool
| 0, _, _, _ => false
| _+1, _, none, none => true
| _+1, _, none, some _ => false
| _+1, _, some _, none => false
| fuel+1, h, some a, some b =>
  match getNode h a, getNode h b with
  | some sa, some sb =>
    typesEqual sa.core.type_ sb.core.type_ &&
    (sa.core.readOnly == sb.core.readOnly) &&
    (sa.core.writeOnly == sb.core.writeOnly) &&
    (sa.core.format == sb.core.format) &&
    enumsEqual sa.core.enum sb.core.enum &&
    (sa.core.minLength == sb.core.minLength) &&
    uint64PtrEqual sa.core.maxLength sb.core.maxLength &&
    float64PtrEqual sa.core.min sb.core.min &&
    float64PtrEqual sa.core.max sb.core.max &&
    (sa.core.exclusiveMin == sb.core.exclusiveMin) &&
    (sa.core.exclusiveMax == sb.core.exclusiveMax) &&
    float64PtrEqual sa.core.multipleOf sb.core.multipleOf &&
    (sa.core.minItems == sb.core.minItems) &&
    uint64PtrEqual sa.core.maxItems sb.core.maxItems &&
    (sa.core.uniqueItems == sb.core.uniqueItems) &&
    (!(isObjectType h (some a) || isObjectType h (some b)) ||
      ((sa.properties.length == sb.properties.length) &&
       sa.properties.all
         (propFound h (schemasEquivalent fuel h) sb.properties) &&
       (sortStrings sa.core.required == sortStrings sb.core.required))) &&
    (!(isArrayType h (some a) || isArrayType h (some b)) ||
      refPtrEquivalent h (schemasEquivalent fuel h) sa.items sb.items)
  | _, _ => false

/-- Errors of `flattenAllOfRecursive`, with `fmt.Errorf` wrapping contexts
kept structurally.  `conflict` carries the property name, the 0-based
component index, and the type and description strings of the first-seen and
conflicting definitions, exactly the data interpolated at lines 178-186. -/
inductive FErr where
| cycle
| conflict (prop : String) (idx : Nat)
    (kindFirst descrFirst kindNew descrNew : String)
| wrapProp (name : String) (e : FErr)
| wrapItems (e : FErr)
| wrapAddProps (e : FErr)
| wrapComp (idx : Nat) (e : FErr)
| wrapMergedProp (name : String) (e : FErr)
| wrapMergedItems (e : FErr)
| wrapMergedAddProps (e : FErr)
deriving DecidableEq

/-- Result of one resolver call: `none` when fuel ran out (the Go code is
still recursing); otherwise the heap after the call's mutations together
with the returned pointer or the returned error.  Go returns `(nil, err)`
on error but its mutations up to that point persist, so the heap is kept
in the error case too. -/
abbrev FRes := Option (Heap × Except FErr NodeId)

/-- Shape of the recursive entry point, passed to the loop helpers. -/
abbrev RecFn := Heap → List NodeId → NodeId → FRes

/-- The mutable accumulator of the merge branch: the fields of the local
`merged` schema that the component loop updates, plus `propertyOrigins`. -/
structure MState where
  props : List (String × Option RefId)
  origins : List (String × NodeId)
  required : List String
  type_ : Option (List String)
  descr : String
  readOnly : Bool
  writeOnly : Bool
  exts : Option (List (String × ExtVal))
deriving DecidableEq

/-- Lines 222-232 of allof.go: merge a component's extensions, keeping
existing keys. -/
def mergeExts (me : Option (List (String × ExtVal)))
    (ce : Option (List (String × ExtVal))) : Option (List (String × ExtVal)) :=
  match ce with
  | none => me
  | some comp =>
    some (comp.foldl
      (fun acc kv => if (plookup kv.1 acc).isSome then acc else acc ++ [kv])
      (me.getD []))

/-- Lines 195-232 of allof.go: after the property-merge loop of one
component, union its required names and merge type, description, the
readOnly and writeOnly flags, and extensions. -/
def mergeMeta (st : MState) (comp : SNode) : MState :=
  { st with
    required := unionRequired st.required comp.core.required
    type_ := if st.type_ = none ∧ comp.core.type_ ≠ none
             then comp.core.type_ else st.type_
    descr := if st.descr = "" ∧ comp.core.description ≠ ""
             then comp.core.description else st.descr
    readOnly := st.readOnly || comp.core.readOnly
    writeOnly := st.writeOnly || comp.core.writeOnly
    exts := mergeExts st.exts comp.core.extensions }

/-- One step of the property-merge loop (lines 167-193 of allof.go) for
component index `i` whose flattened node is `c`: skip nil refs and nil
values, check an existing non-nil definition for equivalence (conflict
error on mismatch), or record a new property together with its origin. -/
def mergePropsStep (fuel : Nat) (h : Heap) (i : Nat) (c : NodeId)
    (acc : Option (Except FErr MState)) (pr : String × Option RefId) :
    Option (Except FErr MState) :=
  match acc with
  | none => none
  | some (.error e) => some (.error e)
  | some (.ok st) =>
    match pr.2 with
    | none => some (.ok st)
    | some r =>
      match refValue h r with
      | none => some (.ok st)
      | some newv =>
        match plookup pr.1 st.props with
        | some exRef =>
          match exRef with
          | none => some (.ok st)
          | some r' =>
            match refValue h r' with
            | none => some (.ok st)
            | some exv =>
              if schemasEquivalent fuel h (some exv) (some newv) then
                some (.ok st)
              else
                some (.error (.conflict pr.1 i
                  (getSchemaType h (some exv))
                  (getDescription h (plookup pr.1 st.origins) pr.1)
                  (getSchemaType h (some newv))
                  (nodeDescr h newv)))
        | none =>
          some (.ok { st with
            props := st.props ++ [(pr.1, some r)]
            origins := st.origins ++ [(pr.1, c)] })

/-- The property-merge loop over one flattened component's properties. -/
def mergeProps (fuel : Nat) (h : Heap) (i : Nat) (c : NodeId) (st : MState)
    (ps : List (String × Option RefId)) : Option (Except FErr MState) :=
  ps.foldl (mergePropsStep fuel h i c) (some (.ok st))

/-- One step of the child-flattening loops (lines 36-47 and 238-247 of
allof.go): flatten a property's schema and write the result back through
the ref cell.  Errors wrap the property name and abort the loop. -/
def flattenPropsStep (rec : RecFn) (v : List NodeId)
    (wrap : String → FErr → FErr)
    (acc : Option (Heap × Except FErr Unit)) (pr : String × Option RefId) :
    Option (Heap × Except FErr Unit) :=
  match acc with
  | none => none
  | some (h, .error e) => some (h, .error e)
  | some (h, .ok _) =>
    match pr.2 with
    | none => some (h, .ok ())
    | some r =>
      match refValue h r with
      | none => some (h, .ok ())
      | some m =>
        match rec h v m with
        | none => none
        | some (h', .error e) => some (h', .error (wrap pr.1 e))
        | some (h', .ok m') => some (setRef h' r (some m'), .ok ())

/-- The child-flattening loop over a properties map. -/
def flattenProps (rec : RecFn) (h : Heap) (v : List NodeId)
    (wrap : String → FErr → FErr) (ps : List (String × Option RefId)) :
    Option (Heap × Except FErr Unit) :=
  ps.foldl (flattenPropsStep rec v wrap) (some (h, .ok ()))

/-- Flattening through one optional ref cell (`Items`,
`AdditionalProperties.Schema`): the `X != nil && X.Value != nil` guard,
recursion, and the write-back `X.Value = flattened`. -/
def flattenCell (rec : RecFn) (h : Heap) (v : List NodeId)
    (wrap : FErr → FErr) (cell : Option RefId) :
    Option (Heap × Except FErr Unit) :=
  match cell with
  | none => some (h, .ok ())
  | some r =>
    match refValue h r with
    | none => some (h, .ok ())
    | some m =>
      match rec h v m with
      | none => none
      | some (h', .error e) => some (h', .error (wrap e))
      | some (h', .ok m') => some (setRef h' r (some m'), .ok ())

/-- One step of the component loop (lines 156-233 of allof.go): skip nil
component refs and values, recursively flatten the component, then run the
property merge and the metadata merge.  The accumulator carries the heap,
the running index `i`, and the merge state or the first error. -/
def mergeCompStep (rec : RecFn) (fuel : Nat) (v : List NodeId)
    (acc : Option (Heap × Nat × Except FErr MState)) (cref : Option RefId) :
    Option (Heap × Nat × Except FErr MState) :=
  match acc with
  | none => none
  | some (h, i, .error e) => some (h, i, .error e)
  | some (h, i, .ok st) =>
    match cref with
    | none => some (h, i + 1, .ok st)
    | some r =>
      match refValue h r with
      | none => some (h, i + 1, .ok st)
      | some m =>
        match rec h v m with
        | none => none
        | some (h', .error e) => some (h', i + 1, .error (.wrapComp i e))
        | some (h', .ok c) =>
          match getNode h' c with
          | none => none
          | some comp =>
            match mergeProps fuel h' i c st comp.properties with
            | none => none
            | some (.error e) => some (h', i + 1, .error e)
            | some (.ok st') => some (h', i + 1, .ok (mergeMeta st' comp))

/-- The component loop over the `AllOf` slice. -/
def mergeComps (rec : RecFn) (fuel : Nat) (h : Heap) (v : List NodeId)
    (st : MState) (comps : List (Option RefId)) :
    Option (Heap × Nat × Except FErr MState) :=
  comps.foldl (mergeCompStep rec fuel v) (some (h, 0, .ok st))

/-- The seed of the merge state: lines 71-153 of allof.go.  Every
conditional field copy there (`if schema.X != zero { merged.X = schema.X }`)
equals an unconditional copy because `merged` starts zero-valued, so the
seed simply takes the base schema's fields; `propertyOrigins` starts with
every base property name mapped to the base schema. -/
def seedState (n : NodeId) (s : SNode) : MState :=
  { props := s.properties
    origins := s.properties.map (fun pr => (pr.1, n))
    required := s.core.required
    type_ := s.core.type_
    descr := s.core.description
    readOnly := s.core.readOnly
    writeOnly := s.core.writeOnly
    exts := s.core.extensions }

/-- The merged schema allocated at the end of the merge branch: the scalar
constraint fields copied from the base at lines 89-133 (`Title` is never
copied), the merged type, description, flags, required (sorted at line
236), extensions, properties and origins from the loop, the base `Items`
and `AdditionalProperties` ref pointers, and an empty `AllOf`. -/
def mergedNode (s : SNode) (st : MState) : SNode :=
  { core := { s.core with
      type_ := st.type_
      description := st.descr
      title := ""
      readOnly := st.readOnly
      writeOnly := st.writeOnly
      required := sortStrings st.required
      extensions := st.exts }
    properties := st.props
    allOf := []
    items := s.items
    apSchema := s.apSchema }

/-- Go `flattenAllOfRecursive(schema *openapi3.Schema, visited
map[*openapi3.Schema]struct{})` (allof.go lines 22-268), fuel-indexed.
The `visited` map with its insert-then-deferred-delete discipline behaves
exactly like the extended list passed down to recursive calls, because
each call removes precisely the entry it added before returning.  `none`
means the fuel ran out; on a dangling node id (impossible in a well-formed
heap, where every ref targets an allocated node) the model also answers
`none`. -/
def flattenRec : Nat → Heap → List NodeId → NodeId → FRes
| 0, _, _, _ => none
| f+1, h, visited, n =>
  if visited.contains n then some (h, .error .cycle)
  else
    let v := n :: visited
    match getNode h n with
    | none => none
    | some s =>
      if s.allOf.isEmpty then
        match flattenProps (fun a b c => flattenRec f a b c) h v
            FErr.wrapProp s.properties with
        | none => none
        | some (h1, .error e) => some (h1, .error e)
        | some (h1, .ok _) =>
          match flattenCell (fun a b c => flattenRec f a b c) h1 v
              FErr.wrapItems s.items with
          | none => none
          | some (h2, .error e) => some (h2, .error e)
          | some (h2, .ok _) =>
            match flattenCell (fun a b c => flattenRec f a b c) h2 v
                FErr.wrapAddProps s.apSchema with
            | none => none
            | some (h3, .error e) => some (h3, .error e)
            | some (h3, .ok _) => some (h3, .ok n)
      else
        match mergeComps (fun a b c => flattenRec f a b c) f h v
            (seedState n s) s.allOf with
        | none => none
        | some (h1, _, .error e) => some (h1, .error e)
        | some (h1, _, .ok st) =>
          match flattenProps (fun a b c => flattenRec f a b c) h1 v
              FErr.wrapMergedProp st.props with
          | none => none
          | some (h2, .error e) => some (h2, .error e)
          | some (h2, .ok _) =>
            match flattenCell (fun a b c => flattenRec f a b c) h2 v
                FErr.wrapMergedItems s.items with
            | none => none
            | some (h3, .error e) => some (h3, .error e)
            | some (h3, .ok _) =>
              match flattenCell (fun a b c => flattenRec f a b c) h3 v
                  FErr.wrapMergedAddProps s.apSchema with
              | none => none
              | some (h4, .error e) => some (h4, .error e)
              | some (h4, .ok _) =>
                let res := allocNode h4 (mergedNode s st)
                some (res.1, .ok res.2)

/-- Go `FlattenAllOf(schema *openapi3.Schema)` (allof.go lines 13-20): the
nil short-circuit and the fresh `visited` set. -/
def FlattenAllOf (fuel : Nat) (h : Heap) (s : Option NodeId) :
    Option (Heap × Except FErr (Option NodeId)) :=
  match s with
  | none => some (h, .ok none)
  | some n =>
    match flattenRec fuel h [] n with
    | none => none
    | some (h', .error e) => some (h', .error e)
    | some (h', .ok m) => some (h', .ok (some m))

/-- Go `isSecretField(schema *openapi3.Schema) bool` (secrets.go lines
24-53): nil check, the `WriteOnly` signal, the case-insensitive
"never be returned" description heuristic, and the `x-ms-secret`
extension, which counts only when its value is a JSON boolean. -/
def isSecretField : Option SNode → Bool
| none => false
| some schema =>
  if schema.core.writeOnly then true
  else if schema.core.description != "" &&
      containsSub (lowerStr schema.core.description) "never be returned" then
    true
  else
    match schema.core.extensions with
    | none => false
    | some exts =>
      match plookup "x-ms-secret" exts with
      | some (.boolVal b) => b
      | _ => false

/-- The `addEnum` closure of `extractEnumValues`: append a rendering unless
already seen (the `seen` set always holds exactly the collected values). -/
def addEnum (acc : List String) (v : String) : List String :=
  if containsStr acc v then acc else acc ++ [v]

/-- The `x-ms-enum` part of `extractEnumValues`: the `value` strings of the
extension's `values` array, in order (both the `json.RawMessage` and the
`map[string]any` branches of the Go switch produce this list). -/
def xmsEnumValues (exts : Option (List (String × ExtVal))) : List String :=
  match exts with
  | none => []
  | some es =>
    match plookup "x-ms-enum" es with
    | some (.enumObj vals) =>
      vals.foldl (fun acc v? => match v? with
        | some v => acc ++ [v]
        | none => acc) []
    | _ => []

/-- Go `extractEnumValues(schema *openapi3.Schema) []string` (the legacy
generator): collect the schema's own enum renderings, then the `x-ms-enum`
values, then — recursively — every `allOf` component's extracted values,
each addition deduplicated against everything collected so far; finally
sort.  Fuel-indexed like the resolver (the Go recursion has no cycle
guard); an exhausted run answers the nil slice. -/
def extractEnumValues : Nat → Heap → Option NodeId → List String
| 0, _, _ => []
| _+1, _, none => []
| fuel+1, h, some n =>
  match getNode h n with
  | none => []
  | some schema =>
    let acc0 := (schema.core.enum.map GoVal.render).foldl addEnum []
    let acc1 := (xmsEnumValues schema.core.extensions).foldl addEnum acc0
    let acc2 := schema.allOf.foldl (fun acc cref =>
      match cref with
      | none => acc
      | some r =>
        match refValue h r with
        | none => acc
        | some m => (extractEnumValues fuel h (some m)).foldl addEnum acc) acc1
    sortStrings acc2

/-- One numeric constraint emitted into a generated `validation` block,
abstracting the HCL tokens built at lines 136-192 of the variable
generator: `var.x > v`, `var.x >= v`, `var.x < v`, `var.x <= v`,
`var.x % v == 0`. -/
inductive NumCond where
| gtCond (v : Int)
| geCond (v : Int)
| ltCond (v : Int)
| leCond (v : Int)
| modCond (v : Int)
deriving DecidableEq

/-- The constraint parts collected by the numeric-validation section of
`generateVariables` (lines 135-192): the property schema's own `Min` with
its own `ExclusiveMin`, its own `Max` with `ExclusiveMax`, its own
`MultipleOf` — in that order, nothing else consulted. -/
def numericConds (schema : SNode) : List NumCond :=
  (match schema.core.min with
   | none => []
   | some minVal =>
     if schema.core.exclusiveMin then [NumCond.gtCond minVal]
     else [NumCond.geCond minVal]) ++
  (match schema.core.max with
   | none => []
   | some maxVal =>
     if schema.core.exclusiveMax then [NumCond.ltCond maxVal]
     else [NumCond.leCond maxVal]) ++
  (match schema.core.multipleOf with
   | none => []
   | some m => [NumCond.modCond m])

/-- The numeric-validation block of `generateVariables` (lines 127-243):
emitted only for a property whose own type list contains `integer` or
`number`, and only when at least one constraint part exists; its condition
is the conjunction of the parts. -/
def numericValidation (schema : SNode) : Option (List NumCond) :=
  match schema.core.type_ with
  | none => none
  | some ts =>
    if ts.any (fun t => t == "integer") || ts.any (fun t => t == "number") then
      let parts := numericConds schema
      if parts.isEmpty then none else some parts
    else none

/-- Spec-side definition, following §4.3 of the spec: all minimums declared
for a property by the node itself and by its direct `allOf` components.
Used only to state what the most-restrictive-wins rule would require. -/
def declaredMins (h : Heap) (n : NodeId) : List Int :=
  match getNode h n with
  | none => []
  | some s =>
    (match s.core.min with | some v => [v] | none => []) ++
    s.allOf.foldl (fun acc cref =>
      match cref with
      | some r =>
        match refValue h r with
        | some m =>
          match getNode h m with
          | some c => acc ++ (match c.core.min with | some v => [v] | none => [])
          | none => acc
        | none => acc
      | none => acc) []

/-- Spec-side definition, following §4.3 of the spec: all maximums declared
for a property by the node itself and by its direct `allOf` components. -/
def declaredMaxs (h : Heap) (n : NodeId) : List Int :=
  match getNode h n with
  | none => []
  | some s =>
    (match s.core.max with | some v => [v] | none => []) ++
    s.allOf.foldl (fun acc cref =>
      match cref with
      | some r =>
        match refValue h r with
        | some m =>
          match getNode h m with
          | some c => acc ++ (match c.core.max with | some v => [v] | none => [])
          | none => acc
        | none => acc
      | none => acc) []

/-- Spec-side companion of `extractEnumValues` for the amended enum claim:
the plain concatenation (union, with multiplicity) of the node's own enum
renderings, its `x-ms-enum` values, and every `allOf` component's
contribution, recursively, at the same fuel. -/
def enumUnionSpec : Nat → Heap → Option NodeId → List String
| 0, _, _ => []
| _+1, _, none => []
| fuel+1, h, some n =>
  match getNode h n with
  | none => []
  | some schema =>
    schema.core.enum.map GoVal.render ++
    xmsEnumValues schema.core.extensions ++
    schema.allOf.foldl (fun acc cref =>
      match cref with
      | none => acc
      | some r =>
        match refValue h r with
        | none => acc
        | some m => acc ++ enumUnionSpec fuel h (some m)) []

/-- Boolean duplicate-freeness of a key list (Go maps cannot repeat keys;
heaps built from parsed specifications satisfy this at every node). -/
def nodupStr : List String → Bool
| [] => true
| x :: xs => !(containsStr xs x) && nodupStr xs

/-- Well-formedness down to depth `fuel` along the paths the equivalence
checker walks: every visited node's property-key list is duplicate-free.
This is the Go-map invariant expressed on the association-list model. -/
def wfKeys : Nat → Heap → Option NodeId → Bool
| 0, _, _ => true
| _+1, _, none => true
| fuel+1, h, some n =>
  match getNode h n with
  | none => true
  | some s =>
    nodupStr (s.properties.map Prod.fst) &&
    s.properties.all (fun pr =>
      pr.2.all (fun r => wfKeys fuel h (refValue h r))) &&
    s.items.all (fun r => wfKeys fuel h (refValue h r))

/-- Spec-side precondition for the tolerance half of the equivalence
claims: down to depth `fuel`, the two schema pointers agree on every field
except possibly `description`, `title` and extension values — the same
core record once those are blanked, identical property-name lists
(duplicate-free, as Go maps are), pairwise doc-identical property values,
and doc-identical items.  With no fuel nothing can be certified, so the
answer is `false`, mirroring the checker's own exhaustion convention. -/
def identicalUpToDocs : Nat → Heap → Option NodeId → Option NodeId → Bool
| 0, _, _, _ => false
| _+1, _, none, none => true
| _+1, _, none, some _ => false
| _+1, _, some _, none => false
| fuel+1, h, some a, some b =>
  match getNode h a, getNode h b with
  | some sa, some sb =>
    ({ sa.core with description := "", title := "", extensions := none } ==
     { sb.core with description := "", title := "", extensions := none }) &&
    (sa.properties.map Prod.fst == sb.properties.map Prod.fst) &&
    nodupStr (sa.properties.map Prod.fst) &&
    ((sa.properties.zip sb.properties).all (fun pp =>
      refPtrEquivalent h (identicalUpToDocs fuel h) pp.1.2 pp.2.2)) &&
    refPtrEquivalent h (identicalUpToDocs fuel h) sa.items sb.items
  | _, _ => false

deriving instance DecidableEq for Except

/-- Example graph for cycle detection: node 0 (`X`) composes node 1 (`Y`)
via ref 0, and `Y` composes `X` back via ref 1. -/
def cycHeap : Heap :=
  { nodes := [ { allOf := [some 0] }, { allOf := [some 1] } ]
    refs := [some 1, some 0] }

/-- Example graph for revisiting a node from two unrelated branches: node 0
has two properties `p` and `q` whose distinct refs 0 and 1 both point at
node 1 (a plain string schema). -/
def diaHeap : Heap :=
  { nodes := [ { properties := [("p", some 0), ("q", some 1)] },
               { core := { type_ := some ["string"] } } ]
    refs := [some 1, some 1] }

/-- Example graph for the mutation counterexample: node 0's property `p`
(ref 0) points at node 1, which composes node 2 (a string schema) via
ref 1. -/
def mutHeap : Heap :=
  { nodes := [ { properties := [("p", some 0)] },
               { allOf := [some 1] },
               { core := { type_ := some ["string"] } } ]
    refs := [some 1, some 2] }

/-- `mutHeap` after resolution: a merged copy of node 1 was allocated as
node 3 and property `p`'s ref was redirected to it. -/
def mutHeapAfter : Heap :=
  { nodes := mutHeap.nodes ++ [ { core := { type_ := some ["string"] } } ]
    refs := [some 3, some 2] }

/-- Example graph for the memoization claim: node 1 (which composes node 2)
is shared, referenced by node 0's properties `p` and `q` through the
distinct refs 0 and 1. -/
def sharedHeap : Heap :=
  { nodes := [ { properties := [("p", some 0), ("q", some 1)] },
               { allOf := [some 2] },
               { core := { type_ := some ["string"] } } ]
    refs := [some 1, some 1, some 2] }

/-- `sharedHeap` after resolution: node 1 was merged twice, once per
reference site, allocating the structurally identical but distinct nodes 3
and 4. -/
def sharedHeapAfter : Heap :=
  { nodes := sharedHeap.nodes ++
      [ { core := { type_ := some ["string"] } },
        { core := { type_ := some ["string"] } } ]
    refs := [some 3, some 4, some 2] }

/-- Example graph for conflict detection: node 0 composes node 1 (whose
property `p` is an integer schema, node 3) and node 2 (whose property `p`
is a string schema, node 4, described as `d2`). -/
def confHeap : Heap :=
  { nodes := [ { allOf := [some 0, some 1] },
               { properties := [("p", some 2)] },
               { properties := [("p", some 3)] },
               { core := { type_ := some ["integer"] } },
               { core := { type_ := some ["string"], description := "d2" } } ]
    refs := [some 1, some 2, some 3, some 4] }

/-- Example graph for equivalent re-declaration: like `confHeap`, but both
`p` definitions are string schemas differing only in description. -/
def equivHeap : Heap :=
  { nodes := [ { allOf := [some 0, some 1] },
               { properties := [("p", some 2)] },
               { properties := [("p", some 3)] },
               { core := { type_ := some ["string"], description := "first" } },
               { core := { type_ := some ["string"], description := "second" } } ]
    refs := [some 1, some 2, some 3, some 4] }

/-- Example graph for the required union: node 0 composes node 1 (required
`a`) and node 2 (required `b`, `c`). -/
def reqHeap : Heap :=
  { nodes := [ { allOf := [some 0, some 1] },
               { core := { required := ["a"] } },
               { core := { required := ["b", "c"] } } ]
    refs := [some 1, some 2] }

/-- Counterexample graph for equivalence strictness: nodes 0 and 1 are both
plain string schemas, but node 0 additionally declares a property `p`
(pointing at node 2) while node 1 declares none. -/
def eqvCexHeap : Heap :=
  { nodes := [ { core := { type_ := some ["string"] },
                 properties := [("p", some 0)] },
               { core := { type_ := some ["string"] } },
               { core := { type_ := some ["string"] } } ]
    refs := [some 2] }

/-- The property schema of the constraint-narrowing example: an integer
declaring `min=1`, `max=100` itself and composing (ref 0 to node 1) a
component declaring `min=10`, `max=50`. -/
def narrowNode : SNode :=
  { core := { type_ := some ["integer"], min := some 1, max := some 100 }
    allOf := [some 0] }

/-- Heap carrying `narrowNode` as node 0 and its component as node 1. -/
def narrowHeap : Heap :=
  { nodes := [ narrowNode, { core := { min := some 10, max := some 50 } } ]
    refs := [some 1] }

/-- Example graph for enum merging: node 0 declares no enum of its own and
composes node 1 (enum `A`) and node 2 (enum `B`). -/
def enumHeap : Heap :=
  { nodes := [ { allOf := [some 0, some 1] },
               { core := { enum := [.strV "A"] } },
               { core := { enum := [.strV "B"] } } ]
    refs := [some 1, some 2] }

/-- `reqHeap` after resolution: the merged node 3 carries the sorted union
of the components' required names. -/
def reqHeapAfter : Heap :=
  { nodes := reqHeap.nodes ++ [ { core := { required := ["a", "b", "c"] } } ]
    refs := reqHeap.refs }

/-- Spec-side (§4.1 step 3b of the spec): the component property list `ps`
declares some property (non-nil ref and value) that the accumulator `st`
already holds with a non-nil definition that the equivalence checker
rejects. -/
def hasConflict (fuel : Nat) (h : Heap) (st : MState)
    (ps : List (String × Option RefId)) : Prop :=
  ∃ p r newv r' exv,
    (p, some r) ∈ ps ∧ refValue h r = some newv ∧
    plookup p st.props = some (some r') ∧ refValue h r' = some exv ∧
    schemasEquivalent fuel h (some exv) (some newv) = false

/-- The conflict error the merge loop reports for property `p` of component
`i`: the first-seen definition's type and its origin schema's description
of `p`, and the conflicting definition's type and description. -/
def conflictErrFor (h : Heap) (st : MState) (i : Nat) (p : String)
    (newv exv : NodeId) : FErr :=
  FErr.conflict p i (getSchemaType h (some exv))
    (getDescription h (plookup p st.origins) p)
    (getSchemaType h (some newv)) (nodeDescr h newv)

/-- The merge state just before `confHeap`'s second component is merged:
the first component contributed property `p` (ref 2) with itself recorded
as origin. -/
def confSt : MState :=
  { props := [("p", some 2)], origins := [("p", 1)], required := []
    type_ := none, descr := "", readOnly := false, writeOnly := false
    exts := none }

/-- `equivHeap` after resolution: the merge succeeds and keeps the
first-seen definition of `p` (ref 2, the node described as `first`). -/
def equivHeapAfter : Heap :=
  { nodes := equivHeap.nodes ++ [ { properties := [("p", some 2)] } ]
    refs := equivHeap.refs }

/-- Spec-side closed cover for the amended non-destructiveness claim: `S`
lists schema nodes that all exist, have no `allOf` composition, and whose
property, items and additionalProperties references only lead back into
`S`.  A node of such a cover reaches no composition at all. -/
def noCompCover (h : Heap) (S : List NodeId) : Bool :=
  S.all (fun m =>
    match getNode h m with
    | none => false
    | some s =>
      s.allOf.isEmpty &&
      s.properties.all (fun pr =>
        match pr.2 with
        | none => true
        | some r =>
          match refValue h r with
          | none => true
          | some t => S.contains t) &&
      (match s.items with
       | none => true
       | some r =>
         match refValue h r with
         | none => true
         | some t => S.contains t) &&
      (match s.apSchema with
       | none => true
       | some r =>
         match refValue h r with
         | none => true
         | some t => S.contains t))

-- ===== THEOREM_ZONE_START =====

theorem strLeChars_cons (a b : Char) (as bs : List Char) :
    strLeChars (a :: as) (b :: bs) = true ↔
      (a.toNat < b.toNat ∨ (a.toNat = b.toNat ∧ strLeChars as bs = true)) := by
  simp only [strLeChars]
  by_cases h1 : a.toNat < b.toNat
  · simp [h1]
  · by_cases h2 : b.toNat < a.toNat
    · simp [h1, h2]
      omega
    · have h3 : a.toNat = b.toNat := by omega
      simp [h1, h2, h3]

theorem strLeChars_total (x y : List Char) :
    strLeChars x y = true ∨ strLeChars y x = true := by
  induction x generalizing y with
  | nil => left; rfl
  | cons c cs ih =>
    cases y with
    | nil => right; rfl
    | cons d ds =>
      by_cases h1 : c.toNat < d.toNat
      · left; exact (strLeChars_cons c d cs ds).2 (Or.inl h1)
      · by_cases h2 : d.toNat < c.toNat
        · right; exact (strLeChars_cons d c ds cs).2 (Or.inl h2)
        · have h3 : c.toNat = d.toNat := by omega
          rcases ih ds with h | h
          · left; exact (strLeChars_cons c d cs ds).2 (Or.inr ⟨h3, h⟩)
          · right; exact (strLeChars_cons d c ds cs).2 (Or.inr ⟨h3.symm, h⟩)

theorem strLeChars_trans (x y z : List Char) (h1 : strLeChars x y = true)
    (h2 : strLeChars y z = true) : strLeChars x z = true := by
  induction x generalizing y z with
  | nil => rfl
  | cons u us ih =>
    cases y with
    | nil => simp [strLeChars] at h1
    | cons v vs =>
      cases z with
      | nil => simp [strLeChars] at h2
      | cons w ws =>
        rcases (strLeChars_cons u v us vs).1 h1 with huv | ⟨huv, hrec1⟩
        · rcases (strLeChars_cons v w vs ws).1 h2 with hvw | ⟨hvw, _⟩
          · exact (strLeChars_cons u w us ws).2 (Or.inl (by omega))
          · exact (strLeChars_cons u w us ws).2 (Or.inl (by omega))
        · rcases (strLeChars_cons v w vs ws).1 h2 with hvw | ⟨hvw, hrec2⟩
          · exact (strLeChars_cons u w us ws).2 (Or.inl (by omega))
          · exact (strLeChars_cons u w us ws).2
              (Or.inr ⟨by omega, ih vs ws hrec1 hrec2⟩)

instance : IsTotal String (fun a b => strLe a b = true) :=
  ⟨fun a b => strLeChars_total a.data b.data⟩

instance : IsTrans String (fun a b => strLe a b = true) :=
  ⟨fun a b c => strLeChars_trans a.data b.data c.data⟩


/-- C9: the secret classifier answers `true` exactly for a writeOnly node,
a node whose description contains the phrase "never be returned" (matched
case-insensitively), or a node whose `x-ms-secret` extension is the JSON
boolean `true`; in every other case — including a present but non-boolean
or false extension — it answers `false`, and a nil schema answers
`false`. -/
theorem claim9_secret_classifier :
    isSecretField none = false ∧
    ∀ s : SNode, (isSecretField (some s) = true ↔
      (s.core.writeOnly = true ∨
       containsSub (lowerStr s.core.description) "never be returned" = true ∨
       (∃ exts, s.core.extensions = some exts ∧
         plookup "x-ms-secret" exts = some (ExtVal.boolVal true)))) := by
  refine ⟨rfl, ?_⟩
  intro s
  unfold isSecretField
  cases hw : s.core.writeOnly with
  | true => simp [hw]
  | false =>
    simp only [hw, Bool.false_eq_true, false_or, if_false]
    cases hdc : (s.core.description != "" &&
        containsSub (lowerStr s.core.description) "never be returned") with
    | true =>
      rw [Bool.and_eq_true] at hdc
      simp [hdc.2]
    | false =>
      have hc : containsSub (lowerStr s.core.description) "never be returned" = false := by
        rcases Bool.and_eq_false_iff.1 hdc with h | h
        · have hde : s.core.description = "" := by simpa using h
          rw [hde]; decide
        · exact h
      simp only [hc, Bool.false_eq_true, false_or, if_false]
      cases hext : s.core.extensions with
      | none => simp
      | some exts =>
        cases hlk : plookup "x-ms-secret" exts with
        | none => simp [hlk]
        | some v =>
          cases v with
          | boolVal b => cases b <;> simp [hlk]
          | strVal x => simp [hlk]
          | strList x => simp [hlk]
          | enumObj x => simp [hlk]
          | other => simp [hlk]

/-- C9 witness: a writeOnly schema is classified as a secret. -/
theorem claim9_witness :
    isSecretField (some { core := { writeOnly := true } }) = true :=
  (claim9_secret_classifier.2 { core := { writeOnly := true } }).2 (Or.inl rfl)

/-- C7: the generated numeric validation block for a property declaring
`min=1, max=100` on the node itself and `min=10, max=50` in an `allOf`
component uses the node's own bounds `>= 1` and `<= 100`; the declared
minimums are `[1, 10]` and maximums `[100, 50]`, so the most-restrictive
bounds `min=10, max=50` the claim requires are not the ones emitted. -/
theorem claim7_no_constraint_narrowing :
    numericValidation narrowNode = some [NumCond.geCond 1, NumCond.leCond 100] ∧
    getNode narrowHeap 0 = some narrowNode ∧
    declaredMins narrowHeap 0 = [1, 10] ∧
    declaredMaxs narrowHeap 0 = [100, 50] ∧
    numericValidation narrowNode ≠ some [NumCond.geCond 10, NumCond.leCond 50] := by
  decide

/-- C4: resolving a schema referenced from two distinct property sites
performs the merge once per reference site, not once per node: both refs
start at the shared node 1, and after resolution they point at the
structurally identical but distinct freshly allocated nodes 3 and 4 — two
merge computations, two allocations, no cache. -/
theorem claim4_merge_repeated_per_reference_site :
    FlattenAllOf 10 sharedHeap (some 0) =
      some (sharedHeapAfter, Except.ok (some 0)) ∧
    refValue sharedHeap 0 = some 1 ∧
    refValue sharedHeap 1 = some 1 ∧
    refValue sharedHeapAfter 0 = some 3 ∧
    refValue sharedHeapAfter 1 = some 4 ∧
    (3 : NodeId) ≠ 4 ∧
    getNode sharedHeapAfter 3 = getNode sharedHeapAfter 4 ∧
    sharedHeapAfter.nodes.length = sharedHeap.nodes.length + 2 := by
  decide

/-- C3 counterexample: resolution mutates the input graph.  Before the
call, node 0's property `p` points (through ref 0) at node 1; after a
successful resolution the same ref points at the freshly merged node 3, so
the graph reachable from the input changed. -/
theorem claim3_counterexample :
    FlattenAllOf 10 mutHeap (some 0) = some (mutHeapAfter, Except.ok (some 0)) ∧
    refValue mutHeap 0 = some 1 ∧
    refValue mutHeapAfter 0 = some 3 ∧
    mutHeapAfter ≠ mutHeap := by
  decide

/-- C8 counterexample: with components declaring enum sets `{A}` and `{B}`,
the extractor returns `[A, B]` — the union — which is strictly larger than
each component's declared set, hence neither the intersection (empty here)
nor the first non-empty declared set (`[A]`). -/
theorem claim8_counterexample :
    extractEnumValues 10 enumHeap (some 0) = ["A", "B"] ∧
    (getNode enumHeap 1).map (fun s => s.core.enum.map GoVal.render) =
      some ["A"] ∧
    (getNode enumHeap 2).map (fun s => s.core.enum.map GoVal.render) =
      some ["B"] ∧
    ¬ (∀ x ∈ extractEnumValues 10 enumHeap (some 0), x ∈ ["A"]) ∧
    ¬ (∀ x ∈ extractEnumValues 10 enumHeap (some 0), x ∈ ["B"]) := by
  decide

/-- C2: re-entering the resolver on a node already on the active resolution
stack fails immediately with the cycle error, leaving the heap untouched
(first conjunct, for every graph, stack and fuel); on the two-node cycle
`X ⇄ Y` the first resolution attempt terminates with the
doubly-wrapped cycle error rather than recursing further (second
conjunct); and because each call removes its node from the in-progress set
on return, a node reached from two unrelated branches resolves fine the
second time (third conjunct, the diamond graph). -/
theorem claim2_cycle_protection :
    (∀ (fuel : Nat) (h : Heap) (visited : List NodeId) (n : NodeId),
        n ∈ visited →
        flattenRec (fuel + 1) h visited n = some (h, Except.error FErr.cycle)) ∧
    flattenRec 10 cycHeap [] 0 =
      some (cycHeap, Except.error (FErr.wrapComp 0 (FErr.wrapComp 0 FErr.cycle))) ∧
    FlattenAllOf 10 diaHeap (some 0) = some (diaHeap, Except.ok (some 0)) := by
  refine ⟨?_, by decide, by decide⟩
  intro fuel h visited n hmem
  have hc : visited.contains n = true := List.elem_eq_true_of_mem hmem
  simp only [flattenRec, hc, if_true]

/-- C2 witness: the re-entry check applied at a concrete stack. -/
theorem claim2_witness :
    (0 : NodeId) ∈ [0] ∧
    flattenRec 5 cycHeap [0] 0 = some (cycHeap, Except.error FErr.cycle) :=
  ⟨by decide, claim2_cycle_protection.1 4 cycHeap [0] 0 (by decide)⟩

theorem containsStr_iff (l : List String) (x : String) :
    containsStr l x = true ↔ x ∈ l := by
  simp [containsStr, List.any_eq_true]

theorem nodupStr_iff (l : List String) : nodupStr l = true ↔ l.Nodup := by
  induction l with
  | nil => simp [nodupStr]
  | cons x xs ih =>
    simp only [nodupStr, Bool.and_eq_true, Bool.not_eq_true', List.nodup_cons, ih]
    constructor
    · rintro ⟨h1, h2⟩
      refine ⟨fun hm => ?_, h2⟩
      rw [(containsStr_iff xs x).2 hm] at h1
      simp at h1
    · rintro ⟨h1, h2⟩
      refine ⟨?_, h2⟩
      cases hc : containsStr xs x
      · rfl
      · exact absurd ((containsStr_iff xs x).1 hc) h1

theorem addEnum_mem (acc : List String) (v x : String) :
    x ∈ addEnum acc v ↔ x ∈ acc ∨ x = v := by
  unfold addEnum
  by_cases h : containsStr acc v = true
  · rw [if_pos h]
    constructor
    · exact Or.inl
    · rintro (hx | rfl)
      · exact hx
      · exact (containsStr_iff _ _).1 h
  · rw [if_neg h]
    simp [List.mem_append]

theorem addEnum_nodup (acc : List String) (v : String) (h : acc.Nodup) :
    (addEnum acc v).Nodup := by
  unfold addEnum
  by_cases hc : containsStr acc v = true
  · rw [if_pos hc]; exact h
  · rw [if_neg hc]
    have hv : v ∉ acc := fun hm => hc ((containsStr_iff _ _).2 hm)
    rw [← List.concat_eq_append]
    exact List.Nodup.concat hv h

theorem foldl_addEnum_mem (l : List String) :
    ∀ (acc : List String) (x : String),
      x ∈ l.foldl addEnum acc ↔ x ∈ acc ∨ x ∈ l := by
  induction l with
  | nil => simp
  | cons y ys ih =>
    intro acc x
    rw [List.foldl_cons, ih, addEnum_mem]
    simp [or_assoc]

theorem foldl_addEnum_nodup (l : List String) :
    ∀ acc : List String, acc.Nodup → (l.foldl addEnum acc).Nodup := by
  induction l with
  | nil => intro acc h; exact h
  | cons y ys ih =>
    intro acc h
    rw [List.foldl_cons]
    exact ih _ (addEnum_nodup _ _ h)

theorem plookup_mem {α : Type} (k : String) (v : α) :
    ∀ l : List (String × α), plookup k l = some v → (k, v) ∈ l := by
  intro l
  induction l with
  | nil => simp [plookup]
  | cons p rest ih =>
    simp only [plookup]
    by_cases h : p.1 == k
    · rw [if_pos h]
      intro hv
      have hk : p.1 = k := by simpa using h
      have hv2 : p.2 = v := by injection hv
      have hp : p = (k, v) := Prod.ext hk hv2
      rw [← hp]
      exact List.mem_cons_self _ _
    · rw [if_neg h]
      intro hv
      exact List.mem_cons_of_mem _ (ih hv)

theorem mem_keys_of_plookup {α : Type} (k : String) (v : α)
    (l : List (String × α)) (h : plookup k l = some v) :
    k ∈ l.map Prod.fst := by
  exact List.mem_map.2 ⟨(k, v), plookup_mem k v l h, rfl⟩

theorem plookup_of_mem_nodup {α : Type} (k : String) (v : α) :
    ∀ l : List (String × α), (l.map Prod.fst).Nodup → (k, v) ∈ l →
      plookup k l = some v := by
  intro l
  induction l with
  | nil => simp
  | cons p rest ih =>
    intro hnd hm
    simp only [List.map_cons, List.nodup_cons] at hnd
    rcases List.mem_cons.1 hm with rfl | hm'
    · simp [plookup]
    · have hne : ¬ (p.1 == k) := by
        intro he
        have : p.1 = k := by simpa using he
        exact hnd.1 (this ▸ List.mem_map.2 ⟨(k, v), hm', rfl⟩)
      simp only [plookup, if_neg hne]
      exact ih hnd.2 hm'

theorem plookup_none {α : Type} (k : String) :
    ∀ l : List (String × α), plookup k l = none ↔ k ∉ l.map Prod.fst := by
  intro l
  induction l with
  | nil => simp [plookup]
  | cons p rest ih =>
    simp only [plookup, List.map_cons, List.mem_cons]
    by_cases h : p.1 == k
    · have : p.1 = k := by simpa using h
      simp [h, this]
    · have : ¬ k = p.1 := by
        intro he; exact h (by simpa using he.symm)
      simp [h, this, ih]

theorem plookup_append {α : Type} (k : String) :
    ∀ l1 l2 : List (String × α),
      plookup k (l1 ++ l2) =
        (match plookup k l1 with
         | some v => some v
         | none => plookup k l2) := by
  intro l1 l2
  induction l1 with
  | nil => simp [plookup]
  | cons p rest ih =>
    simp only [List.cons_append, plookup]
    by_cases h : p.1 == k
    · simp [h]
    · simp [h, ih]

theorem unionRequired_eq_foldl (acc comp : List String) :
    unionRequired acc comp = comp.foldl addEnum acc := rfl

theorem unionRequired_mem (acc comp : List String) (x : String) :
    x ∈ unionRequired acc comp ↔ x ∈ acc ∨ x ∈ comp := by
  rw [unionRequired_eq_foldl]; exact foldl_addEnum_mem comp acc x

theorem unionRequired_nodup (acc comp : List String) (h : acc.Nodup) :
    (unionRequired acc comp).Nodup := by
  rw [unionRequired_eq_foldl]; exact foldl_addEnum_nodup comp acc h

theorem sortStrings_sorted (l : List String) :
    (sortStrings l).Sorted (fun a b => strLe a b = true) :=
  List.sorted_insertionSort _ l

theorem sortStrings_perm (l : List String) : (sortStrings l).Perm l :=
  List.perm_insertionSort _ l

theorem sortStrings_mem (l : List String) (x : String) :
    x ∈ sortStrings l ↔ x ∈ l :=
  (sortStrings_perm l).mem_iff

theorem sortStrings_nodup (l : List String) (h : l.Nodup) :
    (sortStrings l).Nodup :=
  ((sortStrings_perm l).nodup_iff).2 h

theorem list_set_get? {α : Type} :
    ∀ (l : List α) (i : Nat) (a : α), l.get? i = some a → l.set i a = l := by
  intro l
  induction l with
  | nil => intro i a h; simp at h
  | cons x xs ih =>
    intro i a h
    cases i with
    | zero =>
      simp only [List.get?_cons_zero, Option.some.injEq] at h
      simp [h]
    | succ j =>
      rw [List.get?_cons_succ] at h
      have hxs := ih j a h
      show x :: xs.set j a = x :: xs
      rw [hxs]

theorem setRef_self (h : Heap) (r : RefId) (m : NodeId)
    (hr : refValue h r = some m) : setRef h r (some m) = h := by
  have hg : h.refs.get? r = some (some m) := by
    unfold refValue at hr
    cases hgr : h.refs.get? r with
    | none => rw [hgr] at hr; simp at hr
    | some x => rw [hgr] at hr; simp at hr; rw [hr]
  unfold setRef
  rw [list_set_get? _ _ _ hg]

theorem getNode_alloc (h : Heap) (s : SNode) :
    getNode (allocNode h s).1 (allocNode h s).2 = some s := by
  unfold allocNode getNode
  simp [List.get?_eq_getElem?, List.getElem?_concat_length]

theorem extractEnumValues_mem :
    ∀ (fuel : Nat) (h : Heap) (n : Option NodeId) (x : String),
      x ∈ extractEnumValues fuel h n ↔ x ∈ enumUnionSpec fuel h n := by
  intro fuel
  induction fuel with
  | zero => intro h n x; simp [extractEnumValues, enumUnionSpec]
  | succ f ih =>
    intro h n x
    cases n with
    | none => simp [extractEnumValues, enumUnionSpec]
    | some i =>
      cases hg : getNode h i with
      | none => simp [extractEnumValues, enumUnionSpec, hg]
      | some schema =>
        simp only [extractEnumValues, enumUnionSpec, hg]
        rw [sortStrings_mem]
        have hS : ∀ (comps : List (Option RefId)) (acc : List String),
            x ∈ comps.foldl (fun acc cref =>
              match cref with
              | none => acc
              | some r =>
                match refValue h r with
                | none => acc
                | some m => acc ++ enumUnionSpec f h (some m)) acc ↔
            x ∈ acc ∨ ∃ cref ∈ comps, ∃ r, cref = some r ∧
              ∃ m, refValue h r = some m ∧ x ∈ enumUnionSpec f h (some m) := by
          intro comps
          induction comps with
          | nil => simp
          | cons c rest ihc =>
            intro acc
            rw [List.foldl_cons, ihc]
            cases c with
            | none => simp
            | some r =>
              cases hv : refValue h r with
              | none => simp [hv]
              | some m =>
                simp only [hv, List.mem_append, List.mem_cons]
                constructor
                · rintro ((hx | hx) | ⟨cref, hcr, hrest⟩)
                  · exact Or.inl hx
                  · exact Or.inr ⟨some r, Or.inl rfl, r, rfl, m, hv, hx⟩
                  · exact Or.inr ⟨cref, Or.inr hcr, hrest⟩
                · rintro (hx | ⟨cref, (rfl | hcr), r', hr', m', hm', hx⟩)
                  · exact Or.inl (Or.inl hx)
                  · cases hr'
                    rw [hv] at hm'
                    cases hm'
                    exact Or.inl (Or.inr hx)
                  · exact Or.inr ⟨cref, hcr, r', hr', m', hm', hx⟩
        have hE : ∀ (comps : List (Option RefId)) (acc : List String),
            x ∈ comps.foldl (fun acc cref =>
              match cref with
              | none => acc
              | some r =>
                match refValue h r with
                | none => acc
                | some m => (extractEnumValues f h (some m)).foldl addEnum acc) acc ↔
            x ∈ acc ∨ ∃ cref ∈ comps, ∃ r, cref = some r ∧
              ∃ m, refValue h r = some m ∧ x ∈ enumUnionSpec f h (some m) := by
          intro comps
          induction comps with
          | nil => simp
          | cons c rest ihc =>
            intro acc
            rw [List.foldl_cons, ihc]
            cases c with
            | none => simp
            | some r =>
              cases hv : refValue h r with
              | none => simp [hv]
              | some m =>
                simp only [hv]
                rw [foldl_addEnum_mem, ih]
                simp only [List.mem_cons]
                constructor
                · rintro ((hx | hx) | ⟨cref, hcr, hrest⟩)
                  · exact Or.inl hx
                  · exact Or.inr ⟨some r, Or.inl rfl, r, rfl, m, hv, hx⟩
                  · exact Or.inr ⟨cref, Or.inr hcr, hrest⟩
                · rintro (hx | ⟨cref, (rfl | hcr), r', hr', m', hm', hx⟩)
                  · exact Or.inl (Or.inl hx)
                  · cases hr'
                    rw [hv] at hm'
                    cases hm'
                    exact Or.inl (Or.inr hx)
                  · exact Or.inr ⟨cref, hcr, r', hr', m', hm', hx⟩
        rw [hE, foldl_addEnum_mem, foldl_addEnum_mem]
        simp only [List.mem_append, List.not_mem_nil, false_or]
        rw [hS]
        simp only [List.not_mem_nil, false_or, or_assoc]

theorem extractEnumValues_sorted (fuel : Nat) (h : Heap) (n : Option NodeId) :
    (extractEnumValues fuel h n).Sorted (fun a b => strLe a b = true) := by
  cases fuel with
  | zero => simp [extractEnumValues]
  | succ f =>
    cases n with
    | none => simp [extractEnumValues]
    | some i =>
      cases hg : getNode h i with
      | none => simp [extractEnumValues, hg]
      | some schema =>
        simp only [extractEnumValues, hg]
        exact sortStrings_sorted _

theorem extractEnumValues_nodup (fuel : Nat) (h : Heap) (n : Option NodeId) :
    (extractEnumValues fuel h n).Nodup := by
  cases fuel with
  | zero => simp [extractEnumValues]
  | succ f =>
    cases n with
    | none => simp [extractEnumValues]
    | some i =>
      cases hg : getNode h i with
      | none => simp [extractEnumValues, hg]
      | some schema =>
        simp only [extractEnumValues, hg]
        apply sortStrings_nodup
        have hfold : ∀ (comps : List (Option RefId)) (acc : List String),
            acc.Nodup →
            (comps.foldl (fun acc cref =>
              match cref with
              | none => acc
              | some r =>
                match refValue h r with
                | none => acc
                | some m => (extractEnumValues f h (some m)).foldl addEnum acc) acc).Nodup := by
          intro comps
          induction comps with
          | nil => intro acc hacc; exact hacc
          | cons c rest ihc =>
            intro acc hacc
            rw [List.foldl_cons]
            apply ihc
            cases c with
            | none => exact hacc
            | some r =>
              cases hv : refValue h r with
              | none => simp only [hv]; exact hacc
              | some m => simp only [hv]; exact foldl_addEnum_nodup _ _ hacc
        exact hfold _ _ (foldl_addEnum_nodup _ _ (foldl_addEnum_nodup _ _ List.nodup_nil))

/-- C8 amended: the effective enum list produced by the extractor is the
deduplicated, lexicographically sorted union of the node's own enum
renderings, its `x-ms-enum` values, and — recursively — every `allOf`
component's contribution: an element is extracted exactly when some source
in that union declares it (first conjunct), the result has no duplicates
(second), and it is sorted (third).  In particular the effective set can be
strictly larger than an individual component's declaration; no intersection
is computed. -/
theorem claim8_enum_union :
    (∀ (fuel : Nat) (h : Heap) (n : Option NodeId) (x : String),
       x ∈ extractEnumValues fuel h n ↔ x ∈ enumUnionSpec fuel h n) ∧
    (∀ (fuel : Nat) (h : Heap) (n : Option NodeId),
       (extractEnumValues fuel h n).Nodup) ∧
    (∀ (fuel : Nat) (h : Heap) (n : Option NodeId),
       (extractEnumValues fuel h n).Sorted (fun a b => strLe a b = true)) :=
  ⟨extractEnumValues_mem, extractEnumValues_nodup, extractEnumValues_sorted⟩

theorem mergeProps_foldl_none (fuel : Nat) (h : Heap) (i : Nat) (c : NodeId) :
    ∀ ps : List (String × Option RefId),
      ps.foldl (mergePropsStep fuel h i c) none = none := by
  intro ps
  induction ps with
  | nil => rfl
  | cons pr rest ih => rw [List.foldl_cons]; exact ih

theorem mergeProps_foldl_error (fuel : Nat) (h : Heap) (i : Nat) (c : NodeId)
    (e : FErr) :
    ∀ ps : List (String × Option RefId),
      ps.foldl (mergePropsStep fuel h i c) (some (Except.error e)) =
        some (Except.error e) := by
  intro ps
  induction ps with
  | nil => rfl
  | cons pr rest ih => rw [List.foldl_cons]; exact ih

theorem mergeProps_ok_inv (fuel : Nat) (h : Heap) (i : Nat) (c : NodeId) :
    ∀ (ps : List (String × Option RefId)) (st st' : MState),
      mergeProps fuel h i c st ps = some (Except.ok st') →
      st'.required = st.required ∧
      (∀ p rr, plookup p st.props = some rr → plookup p st'.props = some rr) := by
  intro ps
  induction ps with
  | nil =>
    intro st st' hm
    unfold mergeProps at hm
    simp only [List.foldl_nil, Option.some.injEq, Except.ok.injEq] at hm
    subst hm
    exact ⟨rfl, fun _ _ hp => hp⟩
  | cons pr rest ih =>
    intro st st' hm
    unfold mergeProps at hm
    rw [List.foldl_cons] at hm
    obtain ⟨p, oref⟩ := pr
    cases oref with
    | none =>
      have hstep : mergePropsStep fuel h i c (some (Except.ok st)) (p, none) =
          some (Except.ok st) := rfl
      rw [hstep] at hm
      exact ih st st' hm
    | some r =>
      cases hv : refValue h r with
      | none =>
        have hstep : mergePropsStep fuel h i c (some (Except.ok st)) (p, some r) =
            some (Except.ok st) := by
          simp [mergePropsStep, hv]
        rw [hstep] at hm
        exact ih st st' hm
      | some newv =>
        cases hlk : plookup p st.props with
        | some exRef =>
          cases exRef with
          | none =>
            have hstep : mergePropsStep fuel h i c (some (Except.ok st)) (p, some r) =
                some (Except.ok st) := by
              simp [mergePropsStep, hv, hlk]
            rw [hstep] at hm
            exact ih st st' hm
          | some r' =>
            cases hv' : refValue h r' with
            | none =>
              have hstep : mergePropsStep fuel h i c (some (Except.ok st)) (p, some r) =
                  some (Except.ok st) := by
                simp [mergePropsStep, hv, hlk, hv']
              rw [hstep] at hm
              exact ih st st' hm
            | some exv =>
              cases heq : schemasEquivalent fuel h (some exv) (some newv) with
              | true =>
                have hstep : mergePropsStep fuel h i c (some (Except.ok st)) (p, some r) =
                    some (Except.ok st) := by
                  simp [mergePropsStep, hv, hlk, hv', heq]
                rw [hstep] at hm
                exact ih st st' hm
              | false =>
                have hstep : mergePropsStep fuel h i c (some (Except.ok st)) (p, some r) =
                    some (Except.error (FErr.conflict p i
                      (getSchemaType h (some exv))
                      (getDescription h (plookup p st.origins) p)
                      (getSchemaType h (some newv))
                      (nodeDescr h newv))) := by
                  simp [mergePropsStep, hv, hlk, hv', heq]
                rw [hstep, mergeProps_foldl_error] at hm
                simp at hm
        | none =>
          have hstep : mergePropsStep fuel h i c (some (Except.ok st)) (p, some r) =
              some (Except.ok { st with
                props := st.props ++ [(p, some r)]
                origins := st.origins ++ [(p, c)] }) := by
            simp [mergePropsStep, hv, hlk]
          rw [hstep] at hm
          obtain ⟨hreq, hpres⟩ := ih _ st' hm
          refine ⟨hreq, fun p0 rr hp0 => ?_⟩
          apply hpres
          rw [plookup_append, hp0]

theorem mergeComps_foldl_none (rec : RecFn) (fuel : Nat) (v : List NodeId) :
    ∀ comps : List (Option RefId),
      comps.foldl (mergeCompStep rec fuel v) none = none := by
  intro comps
  induction comps with
  | nil => rfl
  | cons c rest ih => rw [List.foldl_cons]; exact ih

theorem mergeComps_foldl_error (rec : RecFn) (fuel : Nat) (v : List NodeId)
    (h0 : Heap) (i0 : Nat) (e : FErr) :
    ∀ comps : List (Option RefId),
      comps.foldl (mergeCompStep rec fuel v) (some (h0, i0, Except.error e)) =
        some (h0, i0, Except.error e) := by
  intro comps
  induction comps with
  | nil => rfl
  | cons c rest ih => rw [List.foldl_cons]; exact ih

theorem mergeComps_required_nodup (rec : RecFn) (fuel : Nat) (v : List NodeId) :
    ∀ (comps : List (Option RefId)) (h0 : Heap) (i0 : Nat) (st0 : MState),
      st0.required.Nodup →
      ∀ (h1 : Heap) (i1 : Nat) (r : Except FErr MState) (st' : MState),
        comps.foldl (mergeCompStep rec fuel v) (some (h0, i0, Except.ok st0)) =
          some (h1, i1, r) →
        r = Except.ok st' → st'.required.Nodup := by
  intro comps
  induction comps with
  | nil =>
    intro h0 i0 st0 hnd h1 i1 r st' hf hr
    simp only [List.foldl_nil, Option.some.injEq, Prod.mk.injEq] at hf
    obtain ⟨-, -, hr'⟩ := hf
    rw [← hr'] at hr
    injection hr with hr
    rw [← hr]
    exact hnd
  | cons c rest ih =>
    intro h0 i0 st0 hnd h1 i1 r st' hf hr
    rw [List.foldl_cons] at hf
    cases c with
    | none =>
      have hstep : mergeCompStep rec fuel v (some (h0, i0, Except.ok st0)) none =
          some (h0, i0 + 1, Except.ok st0) := rfl
      rw [hstep] at hf
      exact ih h0 (i0 + 1) st0 hnd h1 i1 r st' hf hr
    | some rr =>
      cases hv : refValue h0 rr with
      | none =>
        have hstep : mergeCompStep rec fuel v (some (h0, i0, Except.ok st0)) (some rr) =
            some (h0, i0 + 1, Except.ok st0) := by
          simp [mergeCompStep, hv]
        rw [hstep] at hf
        exact ih h0 (i0 + 1) st0 hnd h1 i1 r st' hf hr
      | some m =>
        cases hrec : rec h0 v m with
        | none =>
          have hstep : mergeCompStep rec fuel v (some (h0, i0, Except.ok st0)) (some rr) =
              none := by
            simp [mergeCompStep, hv, hrec]
          rw [hstep, mergeComps_foldl_none] at hf
          simp at hf
        | some pr =>
          obtain ⟨h', res⟩ := pr
          cases res with
          | error e =>
            have hstep : mergeCompStep rec fuel v (some (h0, i0, Except.ok st0)) (some rr) =
                some (h', i0 + 1, Except.error (FErr.wrapComp i0 e)) := by
              simp [mergeCompStep, hv, hrec]
            rw [hstep, mergeComps_foldl_error] at hf
            simp only [Option.some.injEq, Prod.mk.injEq] at hf
            obtain ⟨-, -, hr'⟩ := hf
            rw [← hr'] at hr
            simp at hr
          | ok cid =>
            cases hgc : getNode h' cid with
            | none =>
              have hstep : mergeCompStep rec fuel v (some (h0, i0, Except.ok st0)) (some rr) =
                  none := by
                simp [mergeCompStep, hv, hrec, hgc]
              rw [hstep, mergeComps_foldl_none] at hf
              simp at hf
            | some comp =>
              cases hmp : mergeProps fuel h' i0 cid st0 comp.properties with
              | none =>
                have hstep : mergeCompStep rec fuel v (some (h0, i0, Except.ok st0)) (some rr) =
                    none := by
                  simp [mergeCompStep, hv, hrec, hgc, hmp]
                rw [hstep, mergeComps_foldl_none] at hf
                simp at hf
              | some mres =>
                cases mres with
                | error e =>
                  have hstep : mergeCompStep rec fuel v (some (h0, i0, Except.ok st0)) (some rr) =
                      some (h', i0 + 1, Except.error e) := by
                    simp [mergeCompStep, hv, hrec, hgc, hmp]
                  rw [hstep, mergeComps_foldl_error] at hf
                  simp only [Option.some.injEq, Prod.mk.injEq] at hf
                  obtain ⟨-, -, hr'⟩ := hf
                  rw [← hr'] at hr
                  simp at hr
                | ok st1 =>
                  have hstep : mergeCompStep rec fuel v (some (h0, i0, Except.ok st0)) (some rr) =
                      some (h', i0 + 1, Except.ok (mergeMeta st1 comp)) := by
                    simp [mergeCompStep, hv, hrec, hgc, hmp]
                  rw [hstep] at hf
                  have hst1 : st1.required = st0.required :=
                    (mergeProps_ok_inv fuel h' i0 cid comp.properties st0 st1 hmp).1
                  have hmeta : (mergeMeta st1 comp).required.Nodup := by
                    unfold mergeMeta
                    simp only
                    apply unionRequired_nodup
                    rw [hst1]
                    exact hnd
                  exact ih h' (i0 + 1) (mergeMeta st1 comp) hmeta h1 i1 r st' hf hr

theorem flattenRec_composed_shape :
    ∀ (fuel : Nat) (h : Heap) (v : List NodeId) (n : NodeId) (s : SNode)
      (h' : Heap) (m : NodeId),
      getNode h n = some s → s.allOf ≠ [] →
      flattenRec fuel h v n = some (h', Except.ok m) →
      ∃ (st : MState) (h1 : Heap) (i1 : Nat),
        mergeComps (fun a b c => flattenRec (fuel - 1) a b c) (fuel - 1) h
            (n :: v) (seedState n s) s.allOf = some (h1, i1, Except.ok st) ∧
        getNode h' m = some (mergedNode s st) := by
  intro fuel h v n s h' m hg hall hm
  cases fuel with
  | zero => simp [flattenRec] at hm
  | succ f =>
    unfold flattenRec at hm
    cases hc : v.contains n with
    | true => rw [hc] at hm; simp at hm
    | false =>
      rw [hc] at hm
      simp only [Bool.false_eq_true, if_false, hg] at hm
      have hne : s.allOf.isEmpty = false := by
        cases hε : s.allOf with
        | nil => exact absurd hε hall
        | cons a l => rfl
      rw [hne] at hm
      simp only [Bool.false_eq_true, if_false] at hm
      cases hmc : mergeComps (fun a b c => flattenRec f a b c) f h (n :: v)
          (seedState n s) s.allOf with
      | none => rw [hmc] at hm; simp at hm
      | some trip =>
        obtain ⟨h1, i1, res⟩ := trip
        rw [hmc] at hm
        cases res with
        | error e => simp at hm
        | ok st =>
          simp only at hm
          cases hfp : flattenProps (fun a b c => flattenRec f a b c) h1 (n :: v)
              FErr.wrapMergedProp st.props with
          | none => rw [hfp] at hm; simp at hm
          | some pr2 =>
            obtain ⟨h2, r2⟩ := pr2
            rw [hfp] at hm
            cases r2 with
            | error e => simp at hm
            | ok u =>
              simp only at hm
              cases hfi : flattenCell (fun a b c => flattenRec f a b c) h2 (n :: v)
                  FErr.wrapMergedItems s.items with
              | none => rw [hfi] at hm; simp at hm
              | some pr3 =>
                obtain ⟨h3, r3⟩ := pr3
                rw [hfi] at hm
                cases r3 with
                | error e => simp at hm
                | ok u3 =>
                  simp only at hm
                  cases hfa : flattenCell (fun a b c => flattenRec f a b c) h3 (n :: v)
                      FErr.wrapMergedAddProps s.apSchema with
                  | none => rw [hfa] at hm; simp at hm
                  | some pr4 =>
                    obtain ⟨h4, r4⟩ := pr4
                    rw [hfa] at hm
                    cases r4 with
                    | error e => simp at hm
                    | ok u4 =>
                      simp only [Option.some.injEq, Prod.mk.injEq] at hm
                      obtain ⟨hh', hmm⟩ := hm
                      injection hmm with hmm
                      refine ⟨st, h1, i1, ?_, ?_⟩
                      · simpa using hmc
                      · rw [← hh', ← hmm]
                        exact getNode_alloc h4 (mergedNode s st)

/-- C5: the effective required list.  First conjunct: the component-union
loop produces exactly the union of the accumulated names and the
component's names.  Second conjunct: whenever the resolver succeeds on a
composed node (non-empty `allOf`), the returned schema's required list is
sorted lexicographically, and — provided the node's own required list is
duplicate-free, the data model's invariant — it contains no duplicates
(each component's names are deduplicated against the accumulator by the
code itself).  Third conjunct: composing a component requiring `{a}` with
one requiring `{b, c}` yields exactly `["a", "b", "c"]`. -/
theorem claim5_required_union :
    (∀ (acc comp : List String) (x : String),
       x ∈ unionRequired acc comp ↔ x ∈ acc ∨ x ∈ comp) ∧
    (∀ (fuel : Nat) (h : Heap) (v : List NodeId) (n : NodeId) (s : SNode)
       (h' : Heap) (m : NodeId),
       getNode h n = some s → s.allOf ≠ [] →
       flattenRec fuel h v n = some (h', Except.ok m) →
       ∃ s', getNode h' m = some s' ∧
         s'.core.required.Sorted (fun a b => strLe a b = true) ∧
         (s.core.required.Nodup → s'.core.required.Nodup)) ∧
    FlattenAllOf 10 reqHeap (some 0) =
      some (reqHeapAfter, Except.ok (some 3)) := by
  refine ⟨unionRequired_mem, ?_, by decide⟩
  intro fuel h v n s h' m hg hall hm
  obtain ⟨st, h1, i1, hmc, hget⟩ :=
    flattenRec_composed_shape fuel h v n s h' m hg hall hm
  refine ⟨mergedNode s st, hget, ?_, ?_⟩
  · exact sortStrings_sorted _
  · intro hnd
    show (sortStrings st.required).Nodup
    apply sortStrings_nodup
    exact mergeComps_required_nodup _ _ _ s.allOf h 0 (seedState n s) hnd
      h1 i1 _ st hmc rfl

/-- C5 witness: the general shape statement applied to the `{a}` + `{b, c}`
example graph. -/
theorem claim5_witness :
    ∃ s', getNode reqHeapAfter 3 = some s' ∧
      s'.core.required.Sorted (fun a b => strLe a b = true) ∧
      (({ allOf := [some 0, some 1] } : SNode).core.required.Nodup →
        s'.core.required.Nodup) :=
  claim5_required_union.2.1 10 reqHeap [] 0
    { allOf := [some 0, some 1] } reqHeapAfter 3
    (by decide) (by decide) (by decide)

theorem plookup_append_single_ne {α : Type} (p k : String) (v : α)
    (l : List (String × α)) (hne : k ≠ p) :
    plookup p (l ++ [(k, v)]) = plookup p l := by
  rw [plookup_append]
  cases hp : plookup p l with
  | some x => rfl
  | none =>
    have hb : (k == p) = false := by
      cases hbe : k == p
      · rfl
      · exact absurd (by simpa using hbe) hne
    simp [plookup, hb]

/-- C1: conflict detection in the component property-merge loop.  For a
component property list with duplicate-free keys (the Go-map invariant),
(1) the loop errors exactly when the component defines a property already
present in the accumulator with a non-equivalent definition; (2) any error
is the conflict error naming that property, the component's 0-based index,
and the type and description of both the first-seen definition (looked up
through the recorded origin schema) and the conflicting one; (3) on
success every property already in the accumulator keeps its first-seen
definition — the same ref, hence the same schema and description. -/
theorem claim1_conflict_detection :
    ∀ (fuel : Nat) (h : Heap) (i : Nat) (c : NodeId)
      (ps : List (String × Option RefId)) (st : MState)
      (out : Except FErr MState),
      (ps.map Prod.fst).Nodup →
      mergeProps fuel h i c st ps = some out →
      (((∃ e, out = Except.error e) ↔ hasConflict fuel h st ps) ∧
       (∀ e, out = Except.error e →
         ∃ p r newv r' exv,
           (p, some r) ∈ ps ∧ refValue h r = some newv ∧
           plookup p st.props = some (some r') ∧ refValue h r' = some exv ∧
           schemasEquivalent fuel h (some exv) (some newv) = false ∧
           e = conflictErrFor h st i p newv exv) ∧
       (∀ st', out = Except.ok st' →
         ∀ p rr, plookup p st.props = some rr → plookup p st'.props = some rr)) := by
  intro fuel h i c ps
  induction ps with
  | nil =>
    intro st out hnd hm
    unfold mergeProps at hm
    simp only [List.foldl_nil, Option.some.injEq] at hm
    subst hm
    refine ⟨?_, ?_, ?_⟩
    · simp [hasConflict]
    · intro e he; simp at he
    · intro st' hst' p rr hp
      injection hst' with hst'
      rw [← hst']
      exact hp
  | cons pr rest ih =>
    intro st out hnd hm
    obtain ⟨p0, oref⟩ := pr
    simp only [List.map_cons, List.nodup_cons] at hnd
    obtain ⟨hp0nd, hndrest⟩ := hnd
    unfold mergeProps at hm
    rw [List.foldl_cons] at hm
    cases oref with
    | none =>
      have hstep : mergePropsStep fuel h i c (some (Except.ok st)) (p0, none) =
          some (Except.ok st) := rfl
      rw [hstep] at hm
      obtain ⟨ih1, ih2, ih3⟩ := ih st out hndrest hm
      have hcons : hasConflict fuel h st ((p0, none) :: rest) ↔
          hasConflict fuel h st rest := by
        constructor
        · rintro ⟨p, r, newv, r', exv, hmem, h2, h3, h4, h5⟩
          rcases List.mem_cons.1 hmem with heq | hmem'
          · simp at heq
          · exact ⟨p, r, newv, r', exv, hmem', h2, h3, h4, h5⟩
        · rintro ⟨p, r, newv, r', exv, hmem, h2, h3, h4, h5⟩
          exact ⟨p, r, newv, r', exv, List.mem_cons_of_mem _ hmem, h2, h3, h4, h5⟩
      refine ⟨ih1.trans hcons.symm, ?_, ih3⟩
      intro e he
      obtain ⟨p, r, newv, r', exv, hmem, h2, h3, h4, h5, h6⟩ := ih2 e he
      exact ⟨p, r, newv, r', exv, List.mem_cons_of_mem _ hmem, h2, h3, h4, h5, h6⟩
    | some r0 =>
      cases hv : refValue h r0 with
      | none =>
        have hstep : mergePropsStep fuel h i c (some (Except.ok st)) (p0, some r0) =
            some (Except.ok st) := by
          simp [mergePropsStep, hv]
        rw [hstep] at hm
        obtain ⟨ih1, ih2, ih3⟩ := ih st out hndrest hm
        have hcons : hasConflict fuel h st ((p0, some r0) :: rest) ↔
            hasConflict fuel h st rest := by
          constructor
          · rintro ⟨p, r, newv, r', exv, hmem, h2, h3, h4, h5⟩
            rcases List.mem_cons.1 hmem with heq | hmem'
            · rw [Prod.mk.injEq] at heq
              obtain ⟨rfl, hr⟩ := heq
              injection hr with hr
              subst hr
              rw [hv] at h2
              simp at h2
            · exact ⟨p, r, newv, r', exv, hmem', h2, h3, h4, h5⟩
          · rintro ⟨p, r, newv, r', exv, hmem, h2, h3, h4, h5⟩
            exact ⟨p, r, newv, r', exv, List.mem_cons_of_mem _ hmem, h2, h3, h4, h5⟩
        refine ⟨ih1.trans hcons.symm, ?_, ih3⟩
        intro e he
        obtain ⟨p, r, newv, r', exv, hmem, h2, h3, h4, h5, h6⟩ := ih2 e he
        exact ⟨p, r, newv, r', exv, List.mem_cons_of_mem _ hmem, h2, h3, h4, h5, h6⟩
      | some newv0 =>
        cases hlk : plookup p0 st.props with
        | some exRef =>
          cases exRef with
          | none =>
            have hstep : mergePropsStep fuel h i c (some (Except.ok st)) (p0, some r0) =
                some (Except.ok st) := by
              simp [mergePropsStep, hv, hlk]
            rw [hstep] at hm
            obtain ⟨ih1, ih2, ih3⟩ := ih st out hndrest hm
            have hcons : hasConflict fuel h st ((p0, some r0) :: rest) ↔
                hasConflict fuel h st rest := by
              constructor
              · rintro ⟨p, r, newv, r', exv, hmem, h2, h3, h4, h5⟩
                rcases List.mem_cons.1 hmem with heq | hmem'
                · rw [Prod.mk.injEq] at heq
                  obtain ⟨rfl, hr⟩ := heq
                  rw [hlk] at h3
                  simp at h3
                · exact ⟨p, r, newv, r', exv, hmem', h2, h3, h4, h5⟩
              · rintro ⟨p, r, newv, r', exv, hmem, h2, h3, h4, h5⟩
                exact ⟨p, r, newv, r', exv, List.mem_cons_of_mem _ hmem, h2, h3, h4, h5⟩
            refine ⟨ih1.trans hcons.symm, ?_, ih3⟩
            intro e he
            obtain ⟨p, r, newv, r', exv, hmem, h2, h3, h4, h5, h6⟩ := ih2 e he
            exact ⟨p, r, newv, r', exv, List.mem_cons_of_mem _ hmem, h2, h3, h4, h5, h6⟩
          | some r0' =>
            cases hv' : refValue h r0' with
            | none =>
              have hstep : mergePropsStep fuel h i c (some (Except.ok st)) (p0, some r0) =
                  some (Except.ok st) := by
                simp [mergePropsStep, hv, hlk, hv']
              rw [hstep] at hm
              obtain ⟨ih1, ih2, ih3⟩ := ih st out hndrest hm
              have hcons : hasConflict fuel h st ((p0, some r0) :: rest) ↔
                  hasConflict fuel h st rest := by
                constructor
                · rintro ⟨p, r, newv, r', exv, hmem, h2, h3, h4, h5⟩
                  rcases List.mem_cons.1 hmem with heq | hmem'
                  · rw [Prod.mk.injEq] at heq
                    obtain ⟨rfl, hr⟩ := heq
                    rw [hlk] at h3
                    injection h3 with h3
                    injection h3 with h3
                    subst h3
                    rw [hv'] at h4
                    simp at h4
                  · exact ⟨p, r, newv, r', exv, hmem', h2, h3, h4, h5⟩
                · rintro ⟨p, r, newv, r', exv, hmem, h2, h3, h4, h5⟩
                  exact ⟨p, r, newv, r', exv, List.mem_cons_of_mem _ hmem, h2, h3, h4, h5⟩
              refine ⟨ih1.trans hcons.symm, ?_, ih3⟩
              intro e he
              obtain ⟨p, r, newv, r', exv, hmem, h2, h3, h4, h5, h6⟩ := ih2 e he
              exact ⟨p, r, newv, r', exv, List.mem_cons_of_mem _ hmem, h2, h3, h4, h5, h6⟩
            | some exv0 =>
              cases heqv : schemasEquivalent fuel h (some exv0) (some newv0) with
              | true =>
                have hstep : mergePropsStep fuel h i c (some (Except.ok st)) (p0, some r0) =
                    some (Except.ok st) := by
                  simp [mergePropsStep, hv, hlk, hv', heqv]
                rw [hstep] at hm
                obtain ⟨ih1, ih2, ih3⟩ := ih st out hndrest hm
                have hcons : hasConflict fuel h st ((p0, some r0) :: rest) ↔
                    hasConflict fuel h st rest := by
                  constructor
                  · rintro ⟨p, r, newv, r', exv, hmem, h2, h3, h4, h5⟩
                    rcases List.mem_cons.1 hmem with heq | hmem'
                    · rw [Prod.mk.injEq] at heq
                      obtain ⟨rfl, hr⟩ := heq
                      injection hr with hr
                      subst hr
                      rw [hv] at h2
                      injection h2 with h2
                      subst h2
                      rw [hlk] at h3
                      injection h3 with h3
                      injection h3 with h3
                      subst h3
                      rw [hv'] at h4
                      injection h4 with h4
                      subst h4
                      rw [heqv] at h5
                      simp at h5
                    · exact ⟨p, r, newv, r', exv, hmem', h2, h3, h4, h5⟩
                  · rintro ⟨p, r, newv, r', exv, hmem, h2, h3, h4, h5⟩
                    exact ⟨p, r, newv, r', exv, List.mem_cons_of_mem _ hmem, h2, h3, h4, h5⟩
                refine ⟨ih1.trans hcons.symm, ?_, ih3⟩
                intro e he
                obtain ⟨p, r, newv, r', exv, hmem, h2, h3, h4, h5, h6⟩ := ih2 e he
                exact ⟨p, r, newv, r', exv, List.mem_cons_of_mem _ hmem, h2, h3, h4, h5, h6⟩
              | false =>
                have hstep : mergePropsStep fuel h i c (some (Except.ok st)) (p0, some r0) =
                    some (Except.error (FErr.conflict p0 i
                      (getSchemaType h (some exv0))
                      (getDescription h (plookup p0 st.origins) p0)
                      (getSchemaType h (some newv0))
                      (nodeDescr h newv0))) := by
                  simp [mergePropsStep, hv, hlk, hv', heqv]
                rw [hstep, mergeProps_foldl_error] at hm
                injection hm with hm
                have hout : out = Except.error (FErr.conflict p0 i
                    (getSchemaType h (some exv0))
                    (getDescription h (plookup p0 st.origins) p0)
                    (getSchemaType h (some newv0))
                    (nodeDescr h newv0)) := hm.symm
                refine ⟨?_, ?_, ?_⟩
                · constructor
                  · intro _
                    exact ⟨p0, r0, newv0, r0', exv0, List.mem_cons_self _ _,
                      hv, hlk, hv', heqv⟩
                  · intro _
                    exact ⟨_, hout⟩
                · intro e he
                  rw [hout] at he
                  injection he with he
                  exact ⟨p0, r0, newv0, r0', exv0, List.mem_cons_self _ _,
                    hv, hlk, hv', heqv, he.symm⟩
                · intro st' hst'
                  rw [hout] at hst'
                  simp at hst'
        | none =>
          have hstep : mergePropsStep fuel h i c (some (Except.ok st)) (p0, some r0) =
              some (Except.ok { st with
                props := st.props ++ [(p0, some r0)]
                origins := st.origins ++ [(p0, c)] }) := by
            simp [mergePropsStep, hv, hlk]
          rw [hstep] at hm
          set st1 : MState := { st with
            props := st.props ++ [(p0, some r0)]
            origins := st.origins ++ [(p0, c)] } with hst1
          obtain ⟨ih1, ih2, ih3⟩ := ih st1 out hndrest hm
          have hkey : ∀ p : String, p ∈ rest.map Prod.fst → p ≠ p0 := by
            intro p hp heq
            rw [heq] at hp
            exact hp0nd hp
          have hprops : ∀ p : String, p ≠ p0 →
              plookup p st1.props = plookup p st.props := by
            intro p hne
            rw [hst1]
            exact plookup_append_single_ne p p0 (some r0) st.props
              (fun he => hne he.symm)
          have horig : ∀ p : String, p ≠ p0 →
              plookup p st1.origins = plookup p st.origins := by
            intro p hne
            rw [hst1]
            exact plookup_append_single_ne p p0 c st.origins
              (fun he => hne he.symm)
          have hcons : hasConflict fuel h st1 rest ↔
              hasConflict fuel h st ((p0, some r0) :: rest) := by
            constructor
            · rintro ⟨p, r, newv, r', exv, hmem, h2, h3, h4, h5⟩
              have hne : p ≠ p0 :=
                hkey p (List.mem_map.2 ⟨(p, some r), hmem, rfl⟩)
              rw [hprops p hne] at h3
              exact ⟨p, r, newv, r', exv, List.mem_cons_of_mem _ hmem,
                h2, h3, h4, h5⟩
            · rintro ⟨p, r, newv, r', exv, hmem, h2, h3, h4, h5⟩
              rcases List.mem_cons.1 hmem with heq | hmem'
              · rw [Prod.mk.injEq] at heq
                obtain ⟨rfl, hr⟩ := heq
                rw [hlk] at h3
                simp at h3
              · have hne : p ≠ p0 :=
                  hkey p (List.mem_map.2 ⟨(p, some r), hmem', rfl⟩)
                rw [← hprops p hne] at h3
                exact ⟨p, r, newv, r', exv, hmem', h2, h3, h4, h5⟩
          refine ⟨ih1.trans hcons, ?_, ?_⟩
          · intro e he
            obtain ⟨p, r, newv, r', exv, hmem, h2, h3, h4, h5, h6⟩ := ih2 e he
            have hne : p ≠ p0 :=
              hkey p (List.mem_map.2 ⟨(p, some r), hmem, rfl⟩)
            rw [hprops p hne] at h3
            refine ⟨p, r, newv, r', exv, List.mem_cons_of_mem _ hmem,
              h2, h3, h4, h5, ?_⟩
            rw [h6]
            unfold conflictErrFor
            rw [horig p hne]
          · intro st' hst' p rr hp
            have hne : p ≠ p0 := by
              intro heq
              rw [heq, hlk] at hp
              simp at hp
            apply ih3 st' hst'
            rw [hprops p hne]
            exact hp

/-- C1 witness: the conflict criterion holds at a concrete merge — the
whole resolution of the conflicting graph fails with the conflict error
naming property `p`, component index 1, and both definitions' types and
descriptions, while the graph whose re-declaration differs only in
description succeeds and keeps the first-seen definition. -/
theorem claim1_witness :
    hasConflict 9 confHeap confSt [("p", some 3)] ∧
    FlattenAllOf 10 confHeap (some 0) =
      some (confHeap, Except.error
        (FErr.conflict "p" 1 "integer" "" "string" "d2")) ∧
    FlattenAllOf 10 equivHeap (some 0) =
      some (equivHeapAfter, Except.ok (some 5)) :=
  ⟨(claim1_conflict_detection 9 confHeap 1 2 [("p", some 3)] confSt
      (Except.error (FErr.conflict "p" 1 "integer" "" "string" "d2"))
      (by decide) (by decide)).1.mp
      ⟨FErr.conflict "p" 1 "integer" "" "string" "d2", rfl⟩,
   by decide, by decide⟩

theorem flattenProps_foldl_none (rec : RecFn) (v : List NodeId)
    (wrap : String → FErr → FErr) :
    ∀ ps : List (String × Option RefId),
      ps.foldl (flattenPropsStep rec v wrap) none = none := by
  intro ps
  induction ps with
  | nil => rfl
  | cons pr rest ih => rw [List.foldl_cons]; exact ih

theorem flattenProps_foldl_error (rec : RecFn) (v : List NodeId)
    (wrap : String → FErr → FErr) (h0 : Heap) (e : FErr) :
    ∀ ps : List (String × Option RefId),
      ps.foldl (flattenPropsStep rec v wrap) (some (h0, Except.error e)) =
        some (h0, Except.error e) := by
  intro ps
  induction ps with
  | nil => rfl
  | cons pr rest ih => rw [List.foldl_cons]; exact ih

theorem flattenProps_frame (f : Nat) (h : Heap) (S : List NodeId)
    (hrec : ∀ (v : List NodeId) (n : NodeId) (res : Heap × Except FErr NodeId),
      n ∈ S → flattenRec f h v n = some res →
      res.1 = h ∧ (res.2 = Except.ok n ∨ ∃ e, res.2 = Except.error e))
    (wrap : String → FErr → FErr) (v : List NodeId) :
    ∀ ps : List (String × Option RefId),
      (∀ pr ∈ ps, ∀ r : RefId, pr.2 = some r →
        ∀ t : NodeId, refValue h r = some t → t ∈ S) →
      ∀ out, flattenProps (fun a b c => flattenRec f a b c) h v wrap ps = some out →
        out.1 = h ∧ (out.2 = Except.ok () ∨ ∃ e, out.2 = Except.error e) := by
  intro ps
  induction ps with
  | nil =>
    intro hps out hm
    unfold flattenProps at hm
    simp only [List.foldl_nil, Option.some.injEq] at hm
    rw [← hm]
    exact ⟨rfl, Or.inl rfl⟩
  | cons pr rest ih =>
    intro hps out hm
    obtain ⟨p, oref⟩ := pr
    unfold flattenProps at hm
    rw [List.foldl_cons] at hm
    cases oref with
    | none =>
      have hstep : flattenPropsStep (fun a b c => flattenRec f a b c) v wrap
          (some (h, Except.ok ())) (p, none) = some (h, Except.ok ()) := rfl
      rw [hstep] at hm
      exact ih (fun q hq => hps q (List.mem_cons_of_mem _ hq)) out hm
    | some r =>
      cases hv : refValue h r with
      | none =>
        have hstep : flattenPropsStep (fun a b c => flattenRec f a b c) v wrap
            (some (h, Except.ok ())) (p, some r) = some (h, Except.ok ()) := by
          simp [flattenPropsStep, hv]
        rw [hstep] at hm
        exact ih (fun q hq => hps q (List.mem_cons_of_mem _ hq)) out hm
      | some t =>
        have htS : t ∈ S :=
          hps (p, some r) (List.mem_cons_self _ _) r rfl t hv
        cases hrc : flattenRec f h v t with
        | none =>
          have hstep : flattenPropsStep (fun a b c => flattenRec f a b c) v wrap
              (some (h, Except.ok ())) (p, some r) = none := by
            simp [flattenPropsStep, hv, hrc]
          rw [hstep, flattenProps_foldl_none] at hm
          simp at hm
        | some res' =>
          obtain ⟨hh', hres⟩ := hrec v t res' htS hrc
          rcases hres with hok | ⟨e, herr⟩
          · have hres' : res' = (h, Except.ok t) := Prod.ext hh' hok
            rw [hres'] at hrc
            have hstep : flattenPropsStep (fun a b c => flattenRec f a b c) v wrap
                (some (h, Except.ok ())) (p, some r) =
                some (setRef h r (some t), Except.ok ()) := by
              simp [flattenPropsStep, hv, hrc]
            rw [setRef_self h r t hv] at hstep
            rw [hstep] at hm
            exact ih (fun q hq => hps q (List.mem_cons_of_mem _ hq)) out hm
          · have hres' : res' = (h, Except.error e) := Prod.ext hh' herr
            rw [hres'] at hrc
            have hstep : flattenPropsStep (fun a b c => flattenRec f a b c) v wrap
                (some (h, Except.ok ())) (p, some r) =
                some (h, Except.error (wrap p e)) := by
              simp [flattenPropsStep, hv, hrc]
            rw [hstep, flattenProps_foldl_error] at hm
            injection hm with hm
            rw [← hm]
            exact ⟨rfl, Or.inr ⟨wrap p e, rfl⟩⟩

theorem flattenCell_frame (f : Nat) (h : Heap) (S : List NodeId)
    (hrec : ∀ (v : List NodeId) (n : NodeId) (res : Heap × Except FErr NodeId),
      n ∈ S → flattenRec f h v n = some res →
      res.1 = h ∧ (res.2 = Except.ok n ∨ ∃ e, res.2 = Except.error e))
    (wrap : FErr → FErr) (v : List NodeId) (cell : Option RefId)
    (hcell : ∀ r : RefId, cell = some r →
      ∀ t : NodeId, refValue h r = some t → t ∈ S) :
    ∀ out, flattenCell (fun a b c => flattenRec f a b c) h v wrap cell = some out →
      out.1 = h ∧ (out.2 = Except.ok () ∨ ∃ e, out.2 = Except.error e) := by
  intro out hm
  cases cell with
  | none =>
    unfold flattenCell at hm
    simp only [Option.some.injEq] at hm
    rw [← hm]
    exact ⟨rfl, Or.inl rfl⟩
  | some r =>
    unfold flattenCell at hm
    cases hv : refValue h r with
    | none =>
      simp only [hv, Option.some.injEq] at hm
      rw [← hm]
      exact ⟨rfl, Or.inl rfl⟩
    | some t =>
      have htS : t ∈ S := hcell r rfl t hv
      cases hrc : flattenRec f h v t with
      | none =>
        simp only [hv, hrc] at hm
        exact absurd hm (by simp)
      | some res' =>
        obtain ⟨hh', hres⟩ := hrec v t res' htS hrc
        rcases hres with hok | ⟨e, herr⟩
        · have hres' : res' = (h, Except.ok t) := Prod.ext hh' hok
          rw [hres'] at hrc
          simp only [hv, hrc, Option.some.injEq] at hm
          rw [← hm, setRef_self h r t hv]
          exact ⟨rfl, Or.inl rfl⟩
        · have hres' : res' = (h, Except.error e) := Prod.ext hh' herr
          rw [hres'] at hrc
          simp only [hv, hrc, Option.some.injEq] at hm
          rw [← hm]
          exact ⟨rfl, Or.inr ⟨wrap e, rfl⟩⟩

/-- C3 amended: on any graph region with no composition — a closed cover
`S` of existing, `allOf`-free nodes whose property, items and
additionalProperties references stay in `S` — resolution of a node of `S`
never changes the heap, and returns either the node itself or an error.
The write-backs it performs all rewrite a ref cell with the value it
already holds. -/
theorem claim3_no_composition_frame :
    ∀ (fuel : Nat) (h : Heap) (S : List NodeId) (v : List NodeId) (n : NodeId)
      (res : Heap × Except FErr NodeId),
      noCompCover h S = true → n ∈ S →
      flattenRec fuel h v n = some res →
      res.1 = h ∧ (res.2 = Except.ok n ∨ ∃ e, res.2 = Except.error e) := by
  intro fuel
  induction fuel with
  | zero => intro h S v n res hcov hmem hm; simp [flattenRec] at hm
  | succ f ih =>
    intro h S v n res hcov hmem hm
    have hrec : ∀ (v' : List NodeId) (n' : NodeId)
        (res' : Heap × Except FErr NodeId),
        n' ∈ S → flattenRec f h v' n' = some res' →
        res'.1 = h ∧ (res'.2 = Except.ok n' ∨ ∃ e, res'.2 = Except.error e) :=
      fun v' n' res' hm' hr' => ih h S v' n' res' hcov hm' hr'
    have hx := List.all_eq_true.mp hcov n hmem
    cases hg : getNode h n with
    | none => rw [hg] at hx; simp at hx
    | some s =>
      rw [hg] at hx
      simp only [Bool.and_eq_true] at hx
      obtain ⟨⟨⟨he, hA⟩, hB⟩, hC⟩ := hx
      have hps : ∀ pr ∈ s.properties, ∀ r : RefId, pr.2 = some r →
          ∀ t : NodeId, refValue h r = some t → t ∈ S := by
        intro pr hpr r hr t ht
        have hb := List.all_eq_true.mp hA pr hpr
        simp only [hr, ht] at hb
        exact List.mem_of_elem_eq_true hb
      have hci : ∀ r : RefId, s.items = some r →
          ∀ t : NodeId, refValue h r = some t → t ∈ S := by
        intro r hr t ht
        have hb := hB
        simp only [hr, ht] at hb
        exact List.mem_of_elem_eq_true hb
      have hca : ∀ r : RefId, s.apSchema = some r →
          ∀ t : NodeId, refValue h r = some t → t ∈ S := by
        intro r hr t ht
        have hb := hC
        simp only [hr, ht] at hb
        exact List.mem_of_elem_eq_true hb
      cases hc : v.contains n with
      | true =>
        simp only [flattenRec, hc, if_true, Option.some.injEq] at hm
        rw [← hm]
        exact ⟨rfl, Or.inr ⟨FErr.cycle, rfl⟩⟩
      | false =>
        simp only [flattenRec, hc, Bool.false_eq_true, if_false, hg, he,
          if_true] at hm
        cases hfp : flattenProps (fun a b c => flattenRec f a b c) h (n :: v)
            FErr.wrapProp s.properties with
        | none => rw [hfp] at hm; exact absurd hm (by simp)
        | some out1 =>
          obtain ⟨hh1, hres1⟩ :=
            flattenProps_frame f h S hrec FErr.wrapProp (n :: v)
              s.properties hps out1 hfp
          rcases hres1 with hok1 | ⟨e1, herr1⟩
          · have ho1 : out1 = (h, Except.ok ()) := Prod.ext hh1 hok1
            rw [ho1] at hfp
            rw [hfp] at hm
            simp only at hm
            cases hfi : flattenCell (fun a b c => flattenRec f a b c) h (n :: v)
                FErr.wrapItems s.items with
            | none => rw [hfi] at hm; exact absurd hm (by simp)
            | some out2 =>
              obtain ⟨hh2, hres2⟩ :=
                flattenCell_frame f h S hrec FErr.wrapItems (n :: v)
                  s.items hci out2 hfi
              rcases hres2 with hok2 | ⟨e2, herr2⟩
              · have ho2 : out2 = (h, Except.ok ()) := Prod.ext hh2 hok2
                rw [ho2] at hfi
                rw [hfi] at hm
                simp only at hm
                cases hfa : flattenCell (fun a b c => flattenRec f a b c) h
                    (n :: v) FErr.wrapAddProps s.apSchema with
                | none => rw [hfa] at hm; exact absurd hm (by simp)
                | some out3 =>
                  obtain ⟨hh3, hres3⟩ :=
                    flattenCell_frame f h S hrec FErr.wrapAddProps (n :: v)
                      s.apSchema hca out3 hfa
                  rcases hres3 with hok3 | ⟨e3, herr3⟩
                  · have ho3 : out3 = (h, Except.ok ()) := Prod.ext hh3 hok3
                    rw [ho3] at hfa
                    rw [hfa] at hm
                    simp only [Option.some.injEq] at hm
                    rw [← hm]
                    exact ⟨rfl, Or.inl rfl⟩
                  · have ho3 : out3 = (h, Except.error e3) := Prod.ext hh3 herr3
                    rw [ho3] at hfa
                    rw [hfa] at hm
                    simp only [Option.some.injEq] at hm
                    rw [← hm]
                    exact ⟨rfl, Or.inr ⟨e3, rfl⟩⟩
              · have ho2 : out2 = (h, Except.error e2) := Prod.ext hh2 herr2
                rw [ho2] at hfi
                rw [hfi] at hm
                simp only [Option.some.injEq] at hm
                rw [← hm]
                exact ⟨rfl, Or.inr ⟨e2, rfl⟩⟩
          · have ho1 : out1 = (h, Except.error e1) := Prod.ext hh1 herr1
            rw [ho1] at hfp
            rw [hfp] at hm
            simp only [Option.some.injEq] at hm
            rw [← hm]
            exact ⟨rfl, Or.inr ⟨e1, rfl⟩⟩

/-- C3 amended witness: the frame theorem applied to the diamond graph,
whose two-property node and shared string schema form a composition-free
cover. -/
theorem claim3_witness :
    noCompCover diaHeap [0, 1] = true ∧ (0 : NodeId) ∈ [0, 1] ∧
    ((diaHeap, Except.ok 0) : Heap × Except FErr NodeId).1 = diaHeap ∧
    (((diaHeap, Except.ok 0) : Heap × Except FErr NodeId).2 = Except.ok 0 ∨
      ∃ e, ((diaHeap, Except.ok 0) : Heap × Except FErr NodeId).2 =
        Except.error e) :=
  ⟨by decide, by decide,
    (claim3_no_composition_frame 10 diaHeap [0, 1] [] 0
      (diaHeap, Except.ok 0) (by decide) (by decide) (by decide)).1,
    (claim3_no_composition_frame 10 diaHeap [0, 1] [] 0
      (diaHeap, Except.ok 0) (by decide) (by decide) (by decide)).2⟩

theorem typesEqual_refl (t : Option (List String)) : typesEqual t t = true := by
  cases t with
  | none => rfl
  | some l => simp [typesEqual]

theorem typesEqual_symm (x y : Option (List String)) :
    typesEqual x y = typesEqual y x := by
  cases x <;> cases y <;> simp [typesEqual, Bool.beq_comm]

theorem enumsEqual_refl (a : List GoVal) : enumsEqual a a = true := by
  simp only [enumsEqual, beq_self_eq_true, if_true]
  split <;> simp

theorem enumsEqual_symm (a b : List GoVal) : enumsEqual a b = enumsEqual b a := by
  unfold enumsEqual
  by_cases hl : a.length = b.length
  · rw [hl]
    simp [Bool.beq_comm]
  · have h1 : (a.length == b.length) = false := beq_eq_false_iff_ne.mpr hl
    have h2 : (b.length == a.length) = false := beq_eq_false_iff_ne.mpr (Ne.symm hl)
    simp [h1, h2]

theorem uint64PtrEqual_refl (x : Option Nat) : uint64PtrEqual x x = true := by
  cases x <;> simp [uint64PtrEqual]

theorem uint64PtrEqual_symm (x y : Option Nat) :
    uint64PtrEqual x y = uint64PtrEqual y x := by
  cases x <;> cases y <;> simp [uint64PtrEqual, Bool.beq_comm]

theorem float64PtrEqual_refl (x : Option Int) : float64PtrEqual x x = true := by
  cases x <;> simp [float64PtrEqual]

theorem float64PtrEqual_symm (x y : Option Int) :
    float64PtrEqual x y = float64PtrEqual y x := by
  cases x <;> cases y <;> simp [float64PtrEqual, Bool.beq_comm]

theorem all_propFound_flip (h : Heap)
    (eqf eqg : Option NodeId → Option NodeId → Bool)
    (PA PB : List (String × Option RefId))
    (hlen : PA.length = PB.length)
    (hA : (PA.map Prod.fst).Nodup) (hB : (PB.map Prod.fst).Nodup)
    (hsym : ∀ p x y, (p, x) ∈ PA → (p, y) ∈ PB →
        refPtrEquivalent h eqf x y = true → refPtrEquivalent h eqg y x = true)
    (hall : PA.all (propFound h eqf PB) = true) :
    PB.all (propFound h eqg PA) = true := by
  rw [List.all_eq_true] at hall ⊢
  intro pr hpr
  have hsub : ∀ q ∈ PA.map Prod.fst, q ∈ PB.map Prod.fst := by
    intro q hq
    obtain ⟨qr, hqr, hq1⟩ := List.mem_map.1 hq
    have h2 := hall qr hqr
    simp only [propFound] at h2
    cases hlk : plookup qr.1 PB with
    | none => rw [hlk] at h2; exact absurd h2 (by simp)
    | some y => exact hq1 ▸ mem_keys_of_plookup qr.1 y PB hlk
  have hfin : (PA.map Prod.fst).toFinset = (PB.map Prod.fst).toFinset := by
    apply Finset.eq_of_subset_of_card_le
    · intro q hq
      exact List.mem_toFinset.2 (hsub q (List.mem_toFinset.1 hq))
    · rw [List.toFinset_card_of_nodup hA, List.toFinset_card_of_nodup hB]
      simp [hlen]
  have hk : pr.1 ∈ PA.map Prod.fst := by
    rw [← List.mem_toFinset, hfin, List.mem_toFinset]
    exact List.mem_map_of_mem Prod.fst hpr
  obtain ⟨qr, hqr, hq1⟩ := List.mem_map.1 hk
  have hmemA : (pr.1, qr.2) ∈ PA := by
    rw [← hq1, Prod.mk.eta]; exact hqr
  have hmemB : (pr.1, pr.2) ∈ PB := by
    rw [Prod.mk.eta]; exact hpr
  have hlkA : plookup pr.1 PA = some qr.2 :=
    plookup_of_mem_nodup pr.1 qr.2 PA hA hmemA
  have h2 := hall qr hqr
  simp only [propFound] at h2
  cases hlkB : plookup qr.1 PB with
  | none => rw [hlkB] at h2; exact absurd h2 (by simp)
  | some y =>
    rw [hlkB] at h2
    have hlkB2 : plookup pr.1 PB = some pr.2 :=
      plookup_of_mem_nodup pr.1 pr.2 PB hB hmemB
    rw [hq1, hlkB2] at hlkB
    have hy : pr.2 = y := Option.some.inj hlkB
    rw [← hy] at h2
    simp only [propFound, hlkA]
    exact hsym pr.1 qr.2 pr.2 hmemA hmemB h2

theorem propsBlock_symm (h : Heap)
    (eqf eqg : Option NodeId → Option NodeId → Bool)
    (PA PB : List (String × Option RefId))
    (hA : (PA.map Prod.fst).Nodup) (hB : (PB.map Prod.fst).Nodup)
    (hsym : ∀ p x y, (p, x) ∈ PA → (p, y) ∈ PB →
        refPtrEquivalent h eqf x y = refPtrEquivalent h eqg y x) :
    ((PA.length == PB.length) && PA.all (propFound h eqf PB)) =
    ((PB.length == PA.length) && PB.all (propFound h eqg PA)) := by
  by_cases hl : PA.length = PB.length
  · have h1 : (PA.length == PB.length) = true := by simp [hl]
    have h2 : (PB.length == PA.length) = true := by simp [hl]
    rw [h1, h2, Bool.true_and, Bool.true_and]
    cases hx : PA.all (propFound h eqf PB) with
    | true =>
      have := all_propFound_flip h eqf eqg PA PB hl hA hB
        (fun p x y hxm hym ht => by rw [← hsym p x y hxm hym]; exact ht) hx
      exact this.symm
    | false =>
      cases hy : PB.all (propFound h eqg PA) with
      | false => rfl
      | true =>
        have := all_propFound_flip h eqg eqf PB PA hl.symm hB hA
          (fun p x y hxm hym ht => by rw [hsym p y x hym hxm]; exact ht) hy
        rw [hx] at this
        exact absurd this (by simp)
  · have h1 : (PA.length == PB.length) = false := beq_eq_false_iff_ne.mpr hl
    have h2 : (PB.length == PA.length) = false := beq_eq_false_iff_ne.mpr (Ne.symm hl)
    rw [h1, h2, Bool.false_and, Bool.false_and]

/-- C10: the equivalence checker is symmetric.  On any heap whose nodes
have duplicate-free property-name lists along the compared paths (the Go
map invariant, stated as `wfKeys`), `schemasEquivalent` returns the same
Boolean on `(a, b)` as on `(b, a)` at every fuel, so conflict detection
does not depend on which of two competing definitions was seen first. -/
theorem claim10_symmetric (fuel : Nat) :
    ∀ (h : Heap) (a b : Option NodeId),
      wfKeys fuel h a = true → wfKeys fuel h b = true →
      schemasEquivalent fuel h a b = schemasEquivalent fuel h b a := by
  induction fuel with
  | zero => intro h a b _ _; rfl
  | succ fuel ih =>
    intro h a b hwa hwb
    cases a with
    | none =>
      cases b with
      | none => rfl
      | some b => rfl
    | some a =>
      cases b with
      | none => rfl
      | some b =>
        cases hna : getNode h a with
        | none => cases hnb : getNode h b <;> simp [schemasEquivalent, hna, hnb]
        | some sa =>
          cases hnb : getNode h b with
          | none => simp [schemasEquivalent, hna, hnb]
          | some sb =>
            simp only [wfKeys, hna, Bool.and_eq_true] at hwa
            obtain ⟨⟨hndA, hpwA⟩, hiwA⟩ := hwa
            simp only [wfKeys, hnb, Bool.and_eq_true] at hwb
            obtain ⟨⟨hndB, hpwB⟩, hiwB⟩ := hwb
            have hsym : ∀ p x y, (p, x) ∈ sa.properties → (p, y) ∈ sb.properties →
                refPtrEquivalent h (schemasEquivalent fuel h) x y =
                refPtrEquivalent h (schemasEquivalent fuel h) y x := by
              intro p x y hxm hym
              cases x with
              | none => cases y with
                | none => rfl
                | some rb => rfl
              | some ra =>
                cases y with
                | none => rfl
                | some rb =>
                  simp only [refPtrEquivalent]
                  apply ih h (refValue h ra) (refValue h rb)
                  · have := List.all_eq_true.1 hpwA _ hxm
                    simpa only [Option.all] using this
                  · have := List.all_eq_true.1 hpwB _ hym
                    simpa only [Option.all] using this
            have hit : refPtrEquivalent h (schemasEquivalent fuel h) sa.items sb.items =
                refPtrEquivalent h (schemasEquivalent fuel h) sb.items sa.items := by
              cases hia : sa.items with
              | none => cases hib : sb.items with
                | none => rfl
                | some rb => rfl
              | some ra =>
                cases hib : sb.items with
                | none => rfl
                | some rb =>
                  simp only [refPtrEquivalent]
                  apply ih h (refValue h ra) (refValue h rb)
                  · rw [hia] at hiwA
                    simpa only [Option.all] using hiwA
                  · rw [hib] at hiwB
                    simpa only [Option.all] using hiwB
            have hpb := propsBlock_symm h (schemasEquivalent fuel h)
              (schemasEquivalent fuel h) sa.properties sb.properties
              ((nodupStr_iff _).1 hndA) ((nodupStr_iff _).1 hndB) hsym
            simp only [schemasEquivalent, hna, hnb]
            rw [typesEqual_symm sa.core.type_ sb.core.type_,
                enumsEqual_symm sa.core.enum sb.core.enum,
                uint64PtrEqual_symm sa.core.maxLength sb.core.maxLength,
                float64PtrEqual_symm sa.core.min sb.core.min,
                float64PtrEqual_symm sa.core.max sb.core.max,
                float64PtrEqual_symm sa.core.multipleOf sb.core.multipleOf,
                uint64PtrEqual_symm sa.core.maxItems sb.core.maxItems,
                hpb, hit,
                Bool.or_comm (isObjectType h (some a)) (isObjectType h (some b)),
                Bool.or_comm (isArrayType h (some a)) (isArrayType h (some b)),
                Bool.beq_comm (a := sa.core.readOnly) (b := sb.core.readOnly),
                Bool.beq_comm (a := sa.core.writeOnly) (b := sb.core.writeOnly),
                Bool.beq_comm (a := sa.core.format) (b := sb.core.format),
                Bool.beq_comm (a := sa.core.minLength) (b := sb.core.minLength),
                Bool.beq_comm (a := sa.core.exclusiveMin) (b := sb.core.exclusiveMin),
                Bool.beq_comm (a := sa.core.exclusiveMax) (b := sb.core.exclusiveMax),
                Bool.beq_comm (a := sa.core.minItems) (b := sb.core.minItems),
                Bool.beq_comm (a := sa.core.uniqueItems) (b := sb.core.uniqueItems),
                Bool.beq_comm (a := sortStrings sa.core.required)
                  (b := sortStrings sb.core.required)]

/-- C10 witness: concrete instance of the symmetry theorem on `equivHeap`,
whose nodes 3 and 4 differ only in description; the map invariant is
checked by evaluation and the two comparison orders agree. -/
theorem claim10_witness :
    wfKeys 3 equivHeap (some 3) = true ∧ wfKeys 3 equivHeap (some 4) = true ∧
    schemasEquivalent 3 equivHeap (some 3) (some 4) =
      schemasEquivalent 3 equivHeap (some 4) (some 3) :=
  ⟨by decide, by decide,
   claim10_symmetric 3 equivHeap (some 3) (some 4) (by decide) (by decide)⟩

theorem identical_implies_equivalent (fuel : Nat) :
    ∀ (h : Heap) (a b : Option NodeId),
      identicalUpToDocs fuel h a b = true →
      schemasEquivalent fuel h a b = true := by
  induction fuel with
  | zero => intro h a b hid; simp [identicalUpToDocs] at hid
  | succ fuel ih =>
    intro h a b hid
    cases a with
    | none =>
      cases b with
      | none => rfl
      | some b => simp [identicalUpToDocs] at hid
    | some a =>
      cases b with
      | none => simp [identicalUpToDocs] at hid
      | some b =>
        cases hna : getNode h a with
        | none => simp [identicalUpToDocs, hna] at hid
        | some sa =>
          cases hnb : getNode h b with
          | none => simp [identicalUpToDocs, hna, hnb] at hid
          | some sb =>
            simp only [identicalUpToDocs, hna, hnb, Bool.and_eq_true] at hid
            obtain ⟨⟨⟨⟨hcore, hkeys⟩, hnd⟩, hzip⟩, hitems⟩ := hid
            have hcore2 := eq_of_beq hcore
            have hkeys2 : sa.properties.map Prod.fst =
                sb.properties.map Prod.fst := eq_of_beq hkeys
            simp only [SchCore.mk.injEq] at hcore2
            obtain ⟨ht, hfmt, -, -, hro, hwo, hen, hminl, hmaxl, hmn, hmx,
              hxm, hxx, hmo, hmni, hmxi, hui, hrq, -, -⟩ := hcore2
            have hlen : sa.properties.length = sb.properties.length := by
              have := congrArg List.length hkeys2
              simpa using this
            simp only [schemasEquivalent, hna, hnb]
            rw [ht, hro, hwo, hfmt, hen, hminl, hmaxl, hmn, hmx, hxm, hxx,
                hmo, hmni, hmxi, hui, hrq, hlen]
            simp only [typesEqual_refl, enumsEqual_refl, uint64PtrEqual_refl,
                       float64PtrEqual_refl, beq_self_eq_true, Bool.true_and,
                       Bool.and_true]
            rw [Bool.and_eq_true]
            constructor
            · cases hg : (isObjectType h (some a) || isObjectType h (some b)) with
              | false => simp
              | true =>
                simp only [Bool.not_true, Bool.false_or]
                rw [List.all_eq_true]
                intro pr hpr
                obtain ⟨⟨i, hi⟩, hget⟩ := List.mem_iff_get.1 hpr
                have hib : i < sb.properties.length := hlen ▸ hi
                have h1 : sa.properties[i]? = some pr := by
                  rw [List.getElem?_eq_getElem hi]
                  exact congrArg some (by rw [← hget]; rfl)
                have h2 : (List.map Prod.fst sa.properties)[i]? = some pr.1 := by
                  rw [List.getElem?_map, h1]
                  rfl
                have h3 : (List.map Prod.fst sb.properties)[i]? = some pr.1 := by
                  rw [← hkeys2]; exact h2
                have h5 : (List.map Prod.fst sb.properties)[i]? =
                    some (sb.properties[i]).1 := by
                  rw [List.getElem?_map, List.getElem?_eq_getElem hib]
                  rfl
                have hkey : (sb.properties[i]).1 = pr.1 :=
                  Option.some.inj (h5.symm.trans h3)
                have hndB2 : (sb.properties.map Prod.fst).Nodup := by
                  rw [← hkeys2]; exact (nodupStr_iff _).1 hnd
                have hmemB : (pr.1, (sb.properties[i]).2) ∈ sb.properties := by
                  rw [← hkey, Prod.mk.eta]
                  exact List.getElem_mem hib
                have hlkb : plookup pr.1 sb.properties =
                    some (sb.properties[i]).2 :=
                  plookup_of_mem_nodup pr.1 _ sb.properties hndB2 hmemB
                rw [List.all_eq_true] at hzip
                have hziplen : i < (sa.properties.zip sb.properties).length := by
                  rw [List.length_zip]
                  exact lt_min hi hib
                have hz := hzip ((sa.properties.zip sb.properties)[i])
                  (List.getElem_mem hziplen)
                rw [List.getElem_zip] at hz
                simp only [] at hz
                have hAi : sa.properties[i] = pr :=
                  Option.some.inj ((List.getElem?_eq_getElem hi).symm.trans h1)
                rw [hAi] at hz
                simp only [propFound, hlkb]
                cases hx : pr.2 with
                | none =>
                  cases hy : (sb.properties[i]).2 with
                  | none => rfl
                  | some rb => rw [hx, hy] at hz; simp [refPtrEquivalent] at hz
                | some ra =>
                  cases hy : (sb.properties[i]).2 with
                  | none => rw [hx, hy] at hz; simp [refPtrEquivalent] at hz
                  | some rb =>
                    rw [hx, hy] at hz
                    simp only [refPtrEquivalent] at hz ⊢
                    exact ih h _ _ hz
            · cases hg : (isArrayType h (some a) || isArrayType h (some b)) with
              | false => simp
              | true =>
                simp only [Bool.not_true, Bool.false_or]
                cases hia : sa.items with
                | none =>
                  cases hib : sb.items with
                  | none => rfl
                  | some ib =>
                    rw [hia, hib] at hitems
                    simp [refPtrEquivalent] at hitems
                | some ia =>
                  cases hib : sb.items with
                  | none =>
                    rw [hia, hib] at hitems
                    simp [refPtrEquivalent] at hitems
                  | some ib =>
                    rw [hia, hib] at hitems
                    simp only [refPtrEquivalent] at hitems ⊢
                    exact ih h _ _ hitems

/-- C6: the equivalence checker is tolerant of documentation and strict on
structure — with the object/array guards made explicit.  Tolerance: any two
schema pointers identical up to `description`/`title`/extension values are
accepted at every fuel.  Strictness: for two existing nodes, a difference
in the kind set, `readOnly`/`writeOnly`, `format`, enum set, or any scalar
constraint forces `false`; a difference in property-name set, a nested
property shape, or the required set forces `false` whenever at least one
side is object-typed; and a difference in items forces `false` whenever at
least one side is array-typed. -/
theorem claim6_doc_tolerant_structure_strict :
    (∀ (fuel : Nat) (h : Heap) (a b : Option NodeId),
       identicalUpToDocs fuel h a b = true →
       schemasEquivalent fuel h a b = true) ∧
    (∀ (fuel : Nat) (h : Heap) (a b : NodeId) (sa sb : SNode),
       getNode h a = some sa → getNode h b = some sb →
       ((typesEqual sa.core.type_ sb.core.type_ = false ∨
         sa.core.readOnly ≠ sb.core.readOnly ∨
         sa.core.writeOnly ≠ sb.core.writeOnly ∨
         sa.core.format ≠ sb.core.format ∨
         enumsEqual sa.core.enum sb.core.enum = false ∨
         sa.core.minLength ≠ sb.core.minLength ∨
         uint64PtrEqual sa.core.maxLength sb.core.maxLength = false ∨
         float64PtrEqual sa.core.min sb.core.min = false ∨
         float64PtrEqual sa.core.max sb.core.max = false ∨
         sa.core.exclusiveMin ≠ sb.core.exclusiveMin ∨
         sa.core.exclusiveMax ≠ sb.core.exclusiveMax ∨
         float64PtrEqual sa.core.multipleOf sb.core.multipleOf = false ∨
         sa.core.minItems ≠ sb.core.minItems ∨
         uint64PtrEqual sa.core.maxItems sb.core.maxItems = false ∨
         sa.core.uniqueItems ≠ sb.core.uniqueItems) →
        schemasEquivalent (fuel + 1) h (some a) (some b) = false) ∧
       ((isObjectType h (some a) || isObjectType h (some b)) = true →
        (sa.properties.length ≠ sb.properties.length ∨
         (∃ pr ∈ sa.properties, plookup pr.1 sb.properties = none) ∨
         (∃ pr ∈ sa.properties, ∃ bref,
            plookup pr.1 sb.properties = some bref ∧
            refPtrEquivalent h (schemasEquivalent fuel h) pr.2 bref = false) ∨
         sortStrings sa.core.required ≠ sortStrings sb.core.required) →
        schemasEquivalent (fuel + 1) h (some a) (some b) = false) ∧
       ((isArrayType h (some a) || isArrayType h (some b)) = true →
        refPtrEquivalent h (schemasEquivalent fuel h) sa.items sb.items =
          false →
        schemasEquivalent (fuel + 1) h (some a) (some b) = false)) := by
  constructor
  · exact identical_implies_equivalent
  · intro fuel h a b sa sb hna hnb
    refine ⟨?_, ?_, ?_⟩
    · intro hd
      simp only [schemasEquivalent, hna, hnb]
      rcases hd with hc|hc|hc|hc|hc|hc|hc|hc|hc|hc|hc|hc|hc|hc|hc
      · simp only [hc, Bool.false_and, Bool.and_false]
      · simp only [beq_eq_false_iff_ne.mpr hc, Bool.false_and, Bool.and_false]
      · simp only [beq_eq_false_iff_ne.mpr hc, Bool.false_and, Bool.and_false]
      · simp only [beq_eq_false_iff_ne.mpr hc, Bool.false_and, Bool.and_false]
      · simp only [hc, Bool.false_and, Bool.and_false]
      · simp only [beq_eq_false_iff_ne.mpr hc, Bool.false_and, Bool.and_false]
      · simp only [hc, Bool.false_and, Bool.and_false]
      · simp only [hc, Bool.false_and, Bool.and_false]
      · simp only [hc, Bool.false_and, Bool.and_false]
      · simp only [beq_eq_false_iff_ne.mpr hc, Bool.false_and, Bool.and_false]
      · simp only [beq_eq_false_iff_ne.mpr hc, Bool.false_and, Bool.and_false]
      · simp only [hc, Bool.false_and, Bool.and_false]
      · simp only [beq_eq_false_iff_ne.mpr hc, Bool.false_and, Bool.and_false]
      · simp only [hc, Bool.false_and, Bool.and_false]
      · simp only [beq_eq_false_iff_ne.mpr hc, Bool.false_and, Bool.and_false]
    · intro hg hd
      simp only [schemasEquivalent, hna, hnb, hg, Bool.not_true, Bool.false_or]
      rcases hd with hc|⟨pr, hpr, hlk⟩|⟨pr, hpr, bref, hlk, hne⟩|hc
      · simp only [beq_eq_false_iff_ne.mpr hc, Bool.false_and, Bool.and_false]
      · cases hall : sa.properties.all
            (propFound h (schemasEquivalent fuel h) sb.properties) with
        | false => simp only [hall, Bool.and_false, Bool.false_and]
        | true =>
          have h2 := List.all_eq_true.1 hall pr hpr
          simp only [propFound, hlk] at h2
          exact absurd h2 (by simp)
      · cases hall : sa.properties.all
            (propFound h (schemasEquivalent fuel h) sb.properties) with
        | false => simp only [hall, Bool.and_false, Bool.false_and]
        | true =>
          have h2 := List.all_eq_true.1 hall pr hpr
          simp only [propFound, hlk] at h2
          rw [h2] at hne
          exact absurd hne (by simp)
      · simp only [beq_eq_false_iff_ne.mpr hc, Bool.and_false, Bool.false_and]
    · intro hg hne
      simp only [schemasEquivalent, hna, hnb, hg, Bool.not_true, Bool.false_or,
                 hne, Bool.and_false]

/-- C6 counterexample to the unguarded strictness reading: in `eqvCexHeap`
nodes 0 and 1 are string-typed, node 0 declares property `p` and node 1
declares none — their property-name sets differ — yet the checker answers
`true`, because the property comparison only runs when one side is
object-typed. -/
theorem claim6_counterexample :
    schemasEquivalent 10 eqvCexHeap (some 0) (some 1) = true ∧
    (getNode eqvCexHeap 0).map (fun s => s.properties.map Prod.fst) =
      some ["p"] ∧
    (getNode eqvCexHeap 1).map (fun s => s.properties.map Prod.fst) =
      some [] ∧
    isObjectType eqvCexHeap (some 0) = false ∧
    isObjectType eqvCexHeap (some 1) = false := by decide

/-- C6 witness: tolerance on `equivHeap`'s nodes 3 and 4 (string schemas
differing only in description), and strictness on `confHeap`'s nodes 3 and
4 (integer versus string kind sets). -/
theorem claim6_witness :
    identicalUpToDocs 3 equivHeap (some 3) (some 4) = true ∧
    schemasEquivalent 3 equivHeap (some 3) (some 4) = true ∧
    typesEqual (some ["integer"]) (some ["string"]) = false ∧
    schemasEquivalent 3 confHeap (some 3) (some 4) = false :=
  ⟨by decide,
   claim6_doc_tolerant_structure_strict.1 3 equivHeap (some 3) (some 4)
     (by decide),
   by decide,
   (claim6_doc_tolerant_structure_strict.2 2 confHeap 3 4
      { core := { type_ := some ["integer"] } }
      { core := { type_ := some ["string"], description := "d2" } }
      rfl rfl).1 (Or.inl (by decide))⟩
